import Mathlib

/-! # vmi-unpack: Windows process and VAD introspection (`src/process/windows.c`)

A shallow embedding of `windows.c`.  Every `addr_t` / `reg_t` value is a natural number
below `2 ^ 64`; arithmetic wraps explicitly.  The libvmi primitives the file calls
(`vmi_get_page_mode`, `vmi_read_addr_ksym`, `vmi_read_addr_va`, `vmi_read_32_va`,
`vmi_read_str_va`) are the fields of `vmi_instance_t`: a guest is any choice of them.
The globals `process_vmi_windows_rekall` and `process_vmi_ready` are declared in a header
and are passed as parameters.

Each function threads a log of the libvmi calls it makes (state passing), so that
statements about which reads or comparisons happen can be made.  The two `while (1)` loops
and the recursion of `traverse` need not terminate on every guest: they take a fuel
argument and return `none` only when it runs out.
-/

namespace VmiUnpack

/-! ## Machine arithmetic on `addr_t` (`uint64_t`) -/

/-- Addition `a + b` on `uint64_t`. -/
def add64 (a b : Nat) : Nat := (a + b) % 2 ^ 64

/-- Subtraction `a - b` on `uint64_t`. -/
def sub64 (a b : Nat) : Nat := (a + (2 ^ 64 - b % 2 ^ 64)) % 2 ^ 64

/-- The shift `a << 12` on `uint64_t`. -/
def shl12 (a : Nat) : Nat := (a * 2 ^ 12) % 2 ^ 64

/-- The shift `a >> 63` on `uint64_t`. -/
def shr63 (a : Nat) : Nat := a / 2 ^ 63

/-- The mask `a & 0xFFFFFFFFFFFFFFF8` on `uint64_t`. -/
def mask_fast_ref (a : Nat) : Nat := a &&& 0xFFFFFFFFFFFFFFF8

/-! ## Data model -/

/-- The paging modes `vmi_get_page_mode` can report (libvmi `page_mode_t`). -/
inductive page_mode_t
  | VMI_PM_UNKNOWN
  | VMI_PM_LEGACY
  | VMI_PM_PAE
  | VMI_PM_IA32E
  deriving DecidableEq

/-- The registers of `event->x86_regs` that `windows.c` reads. -/
structure x86_registers_t where
  gs_base : Nat
  cr3 : Nat
  deriving DecidableEq

/-- The fields of `vmi_event_t` that `windows.c` reads. -/
structure vmi_event_t where
  vcpu_id : Nat
  x86_regs : x86_registers_t
  deriving DecidableEq

/-- A memory segment, `mem_seg_t`. -/
structure mem_seg_t where
  base_va : Nat
  size : Nat
  deriving DecidableEq

/-- The offset table `process_vmi_windows_rekall`: the fields `windows.c` uses. -/
structure windows_rekall_t where
  kpcr_prcb : Nat
  kprcb_currentthread : Nat
  kthread_process : Nat
  kprocess_pdbase : Nat
  eprocess_tasks : Nat
  eprocess_pid : Nat
  eprocess_pname : Nat
  eprocess_parent_pid : Nat
  eprocess_vadroot : Nat
  mmvad_startingvpn : Nat
  mmvad_endingvpn : Nat
  mmvad_leftchild : Nat
  mmvad_rightchild : Nat
  deriving DecidableEq

/-- A guest as seen through libvmi: the paging mode of each virtual CPU, the pointer stored
at each kernel symbol, and what a pointer, 32-bit or string read at a virtual address (pid 0)
gives; `none` is a failed read (any status other than `VMI_SUCCESS`). -/
structure vmi_instance_t where
  page_mode : Nat → page_mode_t
  ksym : String → Option Nat
  mem : Nat → Option Nat
  mem32 : Nat → Option Nat
  str : Nat → Option String

/-- One call into libvmi, or one comparison of a page-table base with the target `pgd`. -/
inductive Event
  | get_page_mode (vcpu : Nat)
  | read_addr_ksym (sym : String)
  | read_addr_va (va : Nat)
  | read_32_va (va : Nat)
  | read_str_va (va : Nat)
  | cmp_pdbase (pdbase pgd : Nat)
  deriving DecidableEq

/-- Whether the event is a read of guest memory. -/
def Event.is_read : Event → Bool
  | .read_addr_ksym _ => true
  | .read_addr_va _ => true
  | .read_32_va _ => true
  | .read_str_va _ => true
  | _ => false

/-- Whether the event is a page-table-base comparison. -/
def Event.is_cmp : Event → Bool
  | .cmp_pdbase _ _ => true
  | _ => false

/-- The value `vmi_read_addr_va(vmi, va, 0, &out)` stores in `out`, an `addr_t`. -/
def vmi_read_addr_va (vmi : vmi_instance_t) (va : Nat) : Option Nat :=
  (vmi.mem va).map (fun v => v % 2 ^ 64)

/-- The value `vmi_read_addr_ksym(vmi, sym, &out)` stores in `out`, an `addr_t`. -/
def vmi_read_addr_ksym (vmi : vmi_instance_t) (sym : String) : Option Nat :=
  (vmi.ksym sym).map (fun v => v % 2 ^ 64)

/-- The value `vmi_read_32_va(vmi, va, 0, &out)` stores in `out`, a `uint32_t`. -/
def vmi_read_32_va (vmi : vmi_instance_t) (va : Nat) : Option Nat :=
  (vmi.mem32 va).map (fun v => v % 2 ^ 32)

/-! ## Thread and process resolution -/

/-- Source function `vmi_current_thread_windows`: the current thread pointer from the
per-CPU control block, or `0`. -/
def vmi_current_thread_windows (vmi : vmi_instance_t) (rekall : windows_rekall_t)
    (event : vmi_event_t) (tr : List Event) : Nat × List Event :=
  let tr := tr ++ [Event.get_page_mode event.vcpu_id]
  if vmi.page_mode event.vcpu_id ≠ page_mode_t.VMI_PM_IA32E then (0, tr)
  else
    let gs_base := event.x86_regs.gs_base
    let prcb := rekall.kpcr_prcb
    let currentthread := add64 (add64 gs_base prcb) rekall.kprcb_currentthread
    let tr := tr ++ [Event.read_addr_va currentthread]
    match vmi_read_addr_va vmi currentthread with
    | none => (0, tr)
    | some thread => (thread, tr)

/-- The `while (1)` loop of `windows_find_eprocess_pgd`; `list_head` is the loop-invariant
local of that name (the first link after the head), `next_process` the loop variable. -/
def windows_find_eprocess_pgd_loop (vmi : vmi_instance_t) (rekall : windows_rekall_t)
    (pgd list_head : Nat) : Nat → Nat → List Event → Option (Nat × List Event)
  | 0, _, _ => none
  | fuel + 1, next_process, tr =>
    let tr := tr ++ [Event.read_addr_va next_process]
    match vmi_read_addr_va vmi next_process with
    | none => some (0, tr)
    | some tmp_next =>
      if list_head = tmp_next then some (0, tr)
      else
        let pdaddr := sub64 (add64 next_process rekall.kprocess_pdbase) rekall.eprocess_tasks
        let tr := tr ++ [Event.read_addr_va pdaddr]
        match vmi_read_addr_va vmi pdaddr with
        | none => some (0, tr)
        | some pdbase =>
          let tr := tr ++ [Event.cmp_pdbase pdbase pgd]
          if pdbase = pgd then some (sub64 next_process rekall.eprocess_tasks, tr)
          else windows_find_eprocess_pgd_loop vmi rekall pgd list_head fuel tmp_next tr

/-- Source function `windows_find_eprocess_pgd`: walk the process list from
`PsInitialSystemProcess` for the process whose page-table base is `pgd`. -/
def windows_find_eprocess_pgd (fuel : Nat) (vmi : vmi_instance_t) (rekall : windows_rekall_t)
    (pgd : Nat) (tr : List Event) : Option (Nat × List Event) :=
  let pdbase_offset := rekall.kprocess_pdbase
  let tasks_offset := rekall.eprocess_tasks
  let tr := tr ++ [Event.read_addr_ksym "PsInitialSystemProcess"]
  match vmi_read_addr_ksym vmi "PsInitialSystemProcess" with
  | none => some (0, tr)
  | some list_head =>
    let tr := tr ++ [Event.read_addr_va (add64 list_head tasks_offset)]
    match vmi_read_addr_va vmi (add64 list_head tasks_offset) with
    | none => some (0, tr)
    | some next_process =>
      let tr := tr ++ [Event.read_addr_va (add64 list_head pdbase_offset)]
      match vmi_read_addr_va vmi (add64 list_head pdbase_offset) with
      | none => some (0, tr)
      | some pdbase =>
        let tr := tr ++ [Event.cmp_pdbase pdbase pgd]
        if pdbase = pgd then some (0, tr)
        else windows_find_eprocess_pgd_loop vmi rekall pgd next_process fuel next_process tr

/-- Source function `vmi_current_process_windows`: the fast path through the current
thread, falling back to `windows_find_eprocess_pgd` on the event's `cr3`. -/
def vmi_current_process_windows (fuel : Nat) (vmi : vmi_instance_t)
    (rekall : windows_rekall_t) (event : vmi_event_t) (tr : List Event) :
    Option (Nat × List Event) :=
  let r := vmi_current_thread_windows vmi rekall event tr
  let thread := r.1
  let tr := r.2
  if thread = 0 then windows_find_eprocess_pgd fuel vmi rekall event.x86_regs.cr3 tr
  else
    let kthread := add64 thread rekall.kthread_process
    let tr := tr ++ [Event.read_addr_va kthread]
    match vmi_read_addr_va vmi kthread with
    | none => windows_find_eprocess_pgd fuel vmi rekall event.x86_regs.cr3 tr
    | some process => some (process, tr)

/-! ## Identity accessors -/

/-- Source function `vmi_current_pid_windows`; the result is the 32-bit pattern stored in `pid`. -/
def vmi_current_pid_windows (fuel : Nat) (process_vmi_ready : Bool) (vmi : vmi_instance_t)
    (rekall : windows_rekall_t) (event : vmi_event_t) (tr : List Event) :
    Option (Nat × List Event) :=
  if !process_vmi_ready then some (0, tr)
  else
    match vmi_current_process_windows fuel vmi rekall event tr with
    | none => none
    | some (process, tr) =>
      if process = 0 then some (0, tr)
      else
        let eprocess_pid := add64 process rekall.eprocess_pid
        let tr := tr ++ [Event.read_32_va eprocess_pid]
        match vmi_read_32_va vmi eprocess_pid with
        | none => some (0, tr)
        | some pid => some (pid, tr)

/-- Source function `vmi_current_name_windows`; `NULL` is `none`. -/
def vmi_current_name_windows (fuel : Nat) (process_vmi_ready : Bool) (vmi : vmi_instance_t)
    (rekall : windows_rekall_t) (event : vmi_event_t) (tr : List Event) :
    Option (Option String × List Event) :=
  if !process_vmi_ready then some (none, tr)
  else
    match vmi_current_process_windows fuel vmi rekall event tr with
    | none => none
    | some (process, tr) =>
      if process = 0 then some (none, tr)
      else
        let eprocess_pname := add64 process rekall.eprocess_pname
        some (vmi.str eprocess_pname, tr ++ [Event.read_str_va eprocess_pname])

/-- Source function `vmi_current_parent_pid_windows`; the result is the 32-bit pattern stored in
`parent_pid`. -/
def vmi_current_parent_pid_windows (fuel : Nat) (process_vmi_ready : Bool)
    (vmi : vmi_instance_t) (rekall : windows_rekall_t) (event : vmi_event_t)
    (tr : List Event) : Option (Nat × List Event) :=
  if !process_vmi_ready then some (0, tr)
  else
    match vmi_current_process_windows fuel vmi rekall event tr with
    | none => none
    | some (process, tr) =>
      if process = 0 then some (0, tr)
      else
        let eprocess_parent_pid := add64 process rekall.eprocess_parent_pid
        let tr := tr ++ [Event.read_32_va eprocess_parent_pid]
        match vmi_read_32_va vmi eprocess_parent_pid with
        | none => some (0, tr)
        | some parent_pid => some (parent_pid, tr)

/-! ## VAD point lookup -/

/-- The zero segment every failing path of the VAD lookup returns. -/
def mem_seg_zero : mem_seg_t := { base_va := 0, size := 0 }

/-- The `while (1)` loop of `vmi_current_find_segment_windows`, from the node `curr_vad`. -/
def vmi_current_find_segment_windows_loop (vmi : vmi_instance_t) (rekall : windows_rekall_t)
    (addr : Nat) : Nat → Nat → List Event → Option (mem_seg_t × List Event)
  | 0, _, _ => none
  | fuel + 1, curr_vad, tr =>
    let mmvad_startingvpn := add64 curr_vad rekall.mmvad_startingvpn
    let tr := tr ++ [Event.read_addr_va mmvad_startingvpn]
    match vmi_read_addr_va vmi mmvad_startingvpn with
    | none => some (mem_seg_zero, tr)
    | some startingvpn =>
      let startingvpn := shl12 startingvpn
      if addr < startingvpn then
        let mmvad_leftchild := add64 curr_vad rekall.mmvad_leftchild
        let tr := tr ++ [Event.read_addr_va mmvad_leftchild]
        match vmi_read_addr_va vmi mmvad_leftchild with
        | none => some (mem_seg_zero, tr)
        | some curr_vad =>
          if curr_vad = 0 then some (mem_seg_zero, tr)
          else vmi_current_find_segment_windows_loop vmi rekall addr fuel curr_vad tr
      else
        let mmvad_endingvpn := add64 curr_vad rekall.mmvad_endingvpn
        let tr := tr ++ [Event.read_addr_va mmvad_endingvpn]
        match vmi_read_addr_va vmi mmvad_endingvpn with
        | none => some (mem_seg_zero, tr)
        | some endingvpn =>
          let endingvpn := shl12 endingvpn
          if addr < endingvpn then
            some ({ base_va := startingvpn, size := sub64 endingvpn startingvpn }, tr)
          else
            let mmvad_rightchild := add64 curr_vad rekall.mmvad_rightchild
            let tr := tr ++ [Event.read_addr_va mmvad_rightchild]
            match vmi_read_addr_va vmi mmvad_rightchild with
            | none => some (mem_seg_zero, tr)
            | some curr_vad =>
              if curr_vad = 0 then some (mem_seg_zero, tr)
              else vmi_current_find_segment_windows_loop vmi rekall addr fuel curr_vad tr

/-- Source function `vmi_current_find_segment_windows`: the VAD of the current process
that holds `addr`. -/
def vmi_current_find_segment_windows (fuel : Nat) (process_vmi_ready : Bool)
    (vmi : vmi_instance_t) (rekall : windows_rekall_t) (event : vmi_event_t) (addr : Nat)
    (tr : List Event) : Option (mem_seg_t × List Event) :=
  if !process_vmi_ready then some (mem_seg_zero, tr)
  else
    match vmi_current_process_windows fuel vmi rekall event tr with
    | none => none
    | some (process, tr) =>
      if process = 0 then some (mem_seg_zero, tr)
      else
        let eprocess_vadroot := add64 process rekall.eprocess_vadroot
        let tr := tr ++ [Event.read_addr_va eprocess_vadroot]
        match vmi_read_addr_va vmi eprocess_vadroot with
        | none => some (mem_seg_zero, tr)
        | some curr_vad =>
          let curr_vad := mask_fast_ref curr_vad
          vmi_current_find_segment_windows_loop vmi rekall addr fuel curr_vad tr

/-! ## VAD enumeration -/

/-- The test of `traverse` on the decoded bounds of a node. -/
def sanity_filter (startingvpn endingvpn : Nat) : Bool :=
  startingvpn != 0 && shr63 startingvpn == 0 && decide (startingvpn < endingvpn)
    && shr63 endingvpn == 0

/-- Source function `traverse`: append the segments of the VAD tree under `curr_vad` to
`list`, node first, then left child, then right child.  The fuel bounds the recursion
depth. -/
def traverse (vmi : vmi_instance_t) (rekall : windows_rekall_t) :
    Nat → List mem_seg_t → Nat → List Event → Option (List mem_seg_t × List Event)
  | 0, _, _, _ => none
  | fuel + 1, list, curr_vad, tr =>
    if curr_vad = 0 then some (list, tr)
    else
      let mmvad_endingvpn := add64 curr_vad rekall.mmvad_endingvpn
      let mmvad_startingvpn := add64 curr_vad rekall.mmvad_startingvpn
      let tr := tr ++ [Event.read_addr_va mmvad_startingvpn]
      match vmi_read_addr_va vmi mmvad_startingvpn with
      | none => some (list, tr)
      | some startingvpn =>
        let startingvpn := shl12 startingvpn
        let tr := tr ++ [Event.read_addr_va mmvad_endingvpn]
        match vmi_read_addr_va vmi mmvad_endingvpn with
        | none => some (list, tr)
        | some endingvpn =>
          let endingvpn := shl12 endingvpn
          let list :=
            if sanity_filter startingvpn endingvpn then
              list ++ [{ base_va := startingvpn, size := sub64 endingvpn startingvpn }]
            else list
          let mmvad_next_left := add64 curr_vad rekall.mmvad_leftchild
          let tr := tr ++ [Event.read_addr_va mmvad_next_left]
          match vmi_read_addr_va vmi mmvad_next_left with
          | none => some (list, tr)
          | some next_left =>
            match traverse vmi rekall fuel list next_left tr with
            | none => none
            | some (list, tr) =>
              let mmvad_next_right := add64 curr_vad rekall.mmvad_rightchild
              let tr := tr ++ [Event.read_addr_va mmvad_next_right]
              match vmi_read_addr_va vmi mmvad_next_right with
              | none => some (list, tr)
              | some next_right => traverse vmi rekall fuel list next_right tr

/-- Source function `vmi_current_vad_list_windows`: every segment of the current process (the `addr`
argument is not used by the source). -/
def vmi_current_vad_list_windows (fuel : Nat) (process_vmi_ready : Bool)
    (vmi : vmi_instance_t) (rekall : windows_rekall_t) (event : vmi_event_t) (_addr : Nat)
    (tr : List Event) : Option (List mem_seg_t × List Event) :=
  if !process_vmi_ready then some ([], tr)
  else
    match vmi_current_process_windows fuel vmi rekall event tr with
    | none => none
    | some (process, tr) =>
      if process = 0 then some ([], tr)
      else
        let eprocess_vadroot := add64 process rekall.eprocess_vadroot
        let tr := tr ++ [Event.read_addr_va eprocess_vadroot]
        match vmi_read_addr_va vmi eprocess_vadroot with
        | none => some ([], tr)
        | some curr_vad =>
          let curr_vad := mask_fast_ref curr_vad
          traverse vmi rekall fuel [] curr_vad tr

/-! ## Shapes of guest memory the statements are about -/

/-- The address of the page-table-base field of the process whose list link is at `link`,
as the loop of `windows_find_eprocess_pgd` computes it. -/
def pdbase_field (rekall : windows_rekall_t) (link : Nat) : Nat :=
  sub64 (add64 link rekall.kprocess_pdbase) rekall.eprocess_tasks

/-- The process list of the guest is a circular list of `n` link nodes at the distinct
addresses `links 0, ..., links (n - 1)`: `links 0` is the link field of the process that
`PsInitialSystemProcess` points to, the link at `links i` holds `links ((i + 1) % n)`, and
the page-table-base field of node `i` holds `pdbase i`; all these reads succeed. -/
structure CircularProcessList (vmi : vmi_instance_t) (rekall : windows_rekall_t) (n : Nat)
    (links pdbase : Nat → Nat) : Prop where
  head : ∃ h, vmi_read_addr_ksym vmi "PsInitialSystemProcess" = some h ∧
    links 0 = add64 h rekall.eprocess_tasks
  distinct : ∀ i j, i < n → j < n → links i = links j → i = j
  next : ∀ i, i < n → vmi_read_addr_va vmi (links i) = some (links ((i + 1) % n))
  pd : ∀ i, i < n → vmi_read_addr_va vmi (pdbase_field rekall (links i)) = some (pdbase i)

/-- A finite binary tree of VAD nodes: for each node its guest address, the page numbers
its start and end fields hold, and its left and right subtrees. -/
inductive VadTree
  | nil
  | node (addr startingvpn endingvpn : Nat) (left right : VadTree)
  deriving DecidableEq

/-- The pointer to the tree: `0` for the empty tree, else the address of the top node. -/
def VadTree.root : VadTree → Nat
  | .nil => 0
  | .node addr _ _ _ _ => addr

/-- The number of nodes on the longest path from the top. -/
def VadTree.height : VadTree → Nat
  | .nil => 0
  | .node _ _ _ l r => max l.height r.height + 1

/-- The (start, end) page numbers of the nodes: the node, then its left subtree, then its
right subtree. -/
def VadTree.vpns : VadTree → List (Nat × Nat)
  | .nil => []
  | .node _ s e l r => (s, e) :: (l.vpns ++ r.vpns)

/-- The decoded byte bounds `(start << 12, end << 12)` of a node with page numbers `p`. -/
def vad_bounds (p : Nat × Nat) : Nat × Nat := (shl12 p.1, shl12 p.2)

/-- The decoded bounds of the nodes in preorder. -/
def VadTree.preorder (t : VadTree) : List (Nat × Nat) := t.vpns.map vad_bounds

/-- Guest memory encodes the tree: every node is at a non-zero address, and the reads of
its start, end, left-child and right-child fields succeed with the tree's values. -/
def VadTree.Encoded (vmi : vmi_instance_t) (rekall : windows_rekall_t) : VadTree → Prop
  | .nil => True
  | .node addr s e l r =>
    addr ≠ 0 ∧
    vmi_read_addr_va vmi (add64 addr rekall.mmvad_startingvpn) = some s ∧
    vmi_read_addr_va vmi (add64 addr rekall.mmvad_endingvpn) = some e ∧
    vmi_read_addr_va vmi (add64 addr rekall.mmvad_leftchild) = some l.root ∧
    vmi_read_addr_va vmi (add64 addr rekall.mmvad_rightchild) = some r.root ∧
    VadTree.Encoded vmi rekall l ∧ VadTree.Encoded vmi rekall r

/-- Search-tree order on the starting page number: everything in the left subtree starts
below the node, everything in the right subtree above it. -/
def VadTree.Ordered : VadTree → Prop
  | .nil => True
  | .node _ s _ l r =>
    (∀ p ∈ l.vpns, p.1 < s) ∧ (∀ p ∈ r.vpns, s < p.1) ∧ l.Ordered ∧ r.Ordered

/-- The byte ranges `[start << 12, end << 12)` of two nodes share no address. -/
def ranges_disjoint (p q : Nat × Nat) : Prop :=
  ∀ x, shl12 p.1 ≤ x → x < shl12 p.2 → shl12 q.1 ≤ x → x < shl12 q.2 → False

/-- The ranges of the nodes of the tree are pairwise disjoint. -/
def VadTree.Disjoint (t : VadTree) : Prop := t.vpns.Pairwise ranges_disjoint

/-- The sanity filter in the words of the specification, on decoded bounds: the start is
not zero, the start is below the end, and both have the top bit clear. -/
def passes_sanity (b : Nat × Nat) : Prop :=
  b.1 ≠ 0 ∧ b.1 < b.2 ∧ b.1 < 2 ^ 63 ∧ b.2 < 2 ^ 63

instance (b : Nat × Nat) : Decidable (passes_sanity b) := by
  unfold passes_sanity
  infer_instance

/-- The segment `(start, end - start)` of a node with decoded bounds `b`. -/
def segment_of (b : Nat × Nat) : mem_seg_t := { base_va := b.1, size := b.2 - b.1 }

/-- The segments of the tree in the words of the specification: the preorder sequence of
the nodes, restricted to those passing the sanity filter, each mapped to its segment. -/
def VadTree.preorder_segments (t : VadTree) : List mem_seg_t :=
  (t.preorder.filter (fun b => decide (passes_sanity b))).map segment_of

/-- Whether the range `[base_va, base_va + size)` of the segment holds `addr`. -/
def mem_seg_t.covers (seg : mem_seg_t) (addr : Nat) : Bool :=
  decide (seg.base_va ≤ addr) && decide (addr < seg.base_va + seg.size)

/-! ## Concrete guests -/

/-- An offset table for the concrete guests below. -/
def demo_rekall : windows_rekall_t :=
  { kpcr_prcb := 0x180, kprcb_currentthread := 0x8, kthread_process := 0x210,
    kprocess_pdbase := 0x28, eprocess_tasks := 0x188, eprocess_pid := 0x180,
    eprocess_pname := 0x2e0, eprocess_parent_pid := 0x290, eprocess_vadroot := 0x448,
    mmvad_startingvpn := 0x18, mmvad_endingvpn := 0x20, mmvad_leftchild := 0x8,
    mmvad_rightchild := 0x10 }

/-- A guest in IA-32e mode whose pointer reads are given by a table of cells; every other
pointer read fails.  `PsInitialSystemProcess` points to `0x50000`. -/
def guest_of_cells (cells : List (Nat × Nat)) : vmi_instance_t :=
  { page_mode := fun _ => page_mode_t.VMI_PM_IA32E,
    ksym := fun sym => if sym = "PsInitialSystemProcess" then some 0x50000 else none,
    mem := fun va => cells.lookup va,
    mem32 := fun _ => none,
    str := fun _ => none }

/-- An event on virtual CPU 0 with `gs_base = 0x10000` and `cr3 = 0x1cc000`. -/
def demo_event : vmi_event_t :=
  { vcpu_id := 0, x86_regs := { gs_base := 0x10000, cr3 := 0x1cc000 } }

/-- The cells that resolve the current thread (`0x20000`) and its process (`0x30000`),
with the VAD-root field of that process holding `vadroot`. -/
def current_process_cells (vadroot : Nat) : List (Nat × Nat) :=
  [(0x10188, 0x20000), (0x20210, 0x30000), (0x30448, vadroot)]

/-- A process list of three processes at `0x50000`, `0x51000`, `0x52000`, whose
page-table bases are `0x1aa000`, `0x1bb000`, `0x1cc000`. -/
def process_list_cells : List (Nat × Nat) :=
  [(0x50188, 0x51188), (0x51188, 0x52188), (0x52188, 0x50188),
    (0x50028, 0x1aa000), (0x51028, 0x1bb000), (0x52028, 0x1cc000)]

/-- The guest with that process list. -/
def list_guest : vmi_instance_t := guest_of_cells process_list_cells

/-- The link addresses of the three processes of `list_guest`. -/
def list_links (i : Nat) : Nat := 0x50188 + 0x1000 * i

/-- The page-table bases of the three processes of `list_guest`. -/
def list_pdbase (i : Nat) : Nat := 0x1aa000 + 0x11000 * i

/-- The cells of one VAD node under the offsets of `demo_rekall`. -/
def vad_node_cells (addr startingvpn endingvpn left right : Nat) : List (Nat × Nat) :=
  [(addr + demo_rekall.mmvad_startingvpn, startingvpn),
    (addr + demo_rekall.mmvad_endingvpn, endingvpn),
    (addr + demo_rekall.mmvad_leftchild, left),
    (addr + demo_rekall.mmvad_rightchild, right)]

/-- The cells of a whole tree. -/
def tree_cells : VadTree → List (Nat × Nat)
  | .nil => []
  | .node addr s e l r => vad_node_cells addr s e l.root r.root ++ (tree_cells l ++ tree_cells r)

/-- The guest whose current process (at `0x30000`) has the VAD-root field `vadroot` and
whose memory holds the cells of `t`. -/
def guest_of_tree (vadroot : Nat) (t : VadTree) : vmi_instance_t :=
  guest_of_cells (current_process_cells vadroot ++ tree_cells t)

/-- A search tree of three nodes with the ranges `[0x0, 0x5000)`, `[0x10000, 0x20000)` and
`[0x30000, 0x40000)`; the first starts at page `0`. -/
def demo_tree : VadTree :=
  .node 0x40000 0x10 0x20 (.node 0x41000 0x0 0x5 .nil .nil) (.node 0x42000 0x30 0x40 .nil .nil)

/-- The guest holding `demo_tree`; the root field carries the reference count `3`. -/
def demo_guest : vmi_instance_t := guest_of_tree 0x40003 demo_tree

/-- A search tree whose top node has the empty range `[0x10000, 0x5000)` and whose left
child has the range `[0x3000, 0x20000)`. -/
def empty_range_tree : VadTree :=
  .node 0x40000 0x10 0x5 (.node 0x41000 0x3 0x20 .nil .nil) .nil

/-- The guest holding `empty_range_tree`. -/
def empty_range_guest : vmi_instance_t := guest_of_tree 0x40000 empty_range_tree

/-- A tree of one node with the range `[2 ^ 63, 2 ^ 63 + 0x1000)`. -/
def high_tree : VadTree := .node 0x40000 0x8000000000000 0x8000000000001 .nil .nil

/-- The guest holding `high_tree`. -/
def high_guest : vmi_instance_t := guest_of_tree 0x40000 high_tree

/-- A guest whose current process has the VAD-root field `vadroot` and in which the reads
at address `0` plus the VAD field offsets succeed, as for a node with pages `[1, 2)`. -/
def page_zero_guest (vadroot : Nat) : vmi_instance_t :=
  guest_of_cells (current_process_cells vadroot ++ vad_node_cells 0 1 2 0 0)

/-- A guest in the paging mode `mode` whose pointer reads are given by `cells` and whose
32-bit reads by `cells32`; `PsInitialSystemProcess` points to `0x50000`. -/
def guest_of_mode (mode : page_mode_t) (cells cells32 : List (Nat × Nat)) : vmi_instance_t :=
  { page_mode := fun _ => mode,
    ksym := fun sym => if sym = "PsInitialSystemProcess" then some 0x50000 else none,
    mem := fun va => cells.lookup va,
    mem32 := fun va => cells32.lookup va,
    str := fun _ => none }

/-- A guest in PAE mode with the process list of `list_guest`; the PID field of the
process at `0x52000`, whose page-table base is the `cr3` of `demo_event`, holds `1234`. -/
def pae_guest : vmi_instance_t :=
  guest_of_mode page_mode_t.VMI_PM_PAE process_list_cells [(0x52180, 1234)]

/-- A guest whose process list does not return to the head: the link at `0x52188` points
to itself. -/
def lasso_guest : vmi_instance_t :=
  guest_of_cells [(0x50188, 0x51188), (0x51188, 0x52188), (0x52188, 0x52188),
    (0x50028, 0x1aa000), (0x51028, 0x1bb000), (0x52028, 0x1cc000)]

/-- A guest with the process list of `list_guest` in which the current thread is `0x20000`
and the process pointer of that thread reads `0`. -/
def null_process_guest : vmi_instance_t :=
  guest_of_cells ([(0x10188, 0x20000), (0x20210, 0)] ++ process_list_cells)

/-- A guest with a VAD node at `0x40000` (pages `[0x10, 0x20)`) whose left child pointer is
`0x41000`, where no read succeeds, and whose right child at `0x42000` has pages
`[0x30, 0x40)`. -/
def broken_left_guest : vmi_instance_t :=
  guest_of_cells (vad_node_cells 0x40000 0x10 0x20 0x41000 0x42000 ++
    vad_node_cells 0x42000 0x30 0x40 0 0)

/-- A guest whose current process is `0x30000` and whose VAD-root field, at `0x30448`,
holds `vadroot`; the VAD node at `0x30430` overlaps that field: its start field is at
`0x30448` too.  Its end field holds `0x30440` and both child pointers are `0`. -/
def overlap_guest (vadroot : Nat) : vmi_instance_t :=
  { page_mode := fun _ => page_mode_t.VMI_PM_IA32E,
    ksym := fun _ => none,
    mem := fun va =>
      if va = 0x30448 then some vadroot
      else [(0x10188, 0x20000), (0x20210, 0x30000), (0x30450, 0x30440), (0x30438, 0),
        (0x30440, 0)].lookup va,
    mem32 := fun _ => none,
    str := fun _ => none }

/-- Whether the event is a pointer read that covers the byte at `a`: the read at `va` takes
the 8 bytes `va, ..., va + 7`, addresses wrapping at `2 ^ 64`, so it covers that byte when
`a - va`, in 64-bit arithmetic, is below `8`. -/
def Event.covers (a : Nat) : Event → Bool
  | .read_addr_va va => decide (sub64 a va < 8)
  | _ => false

/-- Two guests whose memories differ at most in the byte at `a`, the first byte of a
little-endian pointer field at `a`, which holds its low bits: the paging modes are the
same, every pointer read whose 8 bytes do not cover the byte at `a` gives the same on
both, and so does the read of the kernel variable `PsInitialSystemProcess` (whose address
is not part of the model, so this is a condition of its own). -/
def agree_off_byte (vmi1 vmi2 : vmi_instance_t) (a : Nat) : Prop :=
  vmi1.page_mode = vmi2.page_mode ∧
    vmi1.ksym "PsInitialSystemProcess" = vmi2.ksym "PsInitialSystemProcess" ∧
    ∀ va, ¬ sub64 a va < 8 → vmi1.mem va = vmi2.mem va

/-- How many pointer reads covering the byte at `a` the log of a run holds; `0` for a run
that did not return. -/
def log_covers {α : Type} (run : Option (α × List Event)) (a : Nat) : Nat :=
  match run with
  | none => 0
  | some (_, tr) => tr.countP (Event.covers a)

/-! ## Arithmetic facts -/

theorem sub64_add64_add64 (h t p : Nat) : sub64 (add64 (add64 h t) p) t = add64 h p := by
  unfold sub64 add64
  omega

theorem pdbase_field_head (rekall : windows_rekall_t) (h : Nat) :
    pdbase_field rekall (add64 h rekall.eprocess_tasks) = add64 h rekall.kprocess_pdbase := by
  unfold pdbase_field
  exact sub64_add64_add64 h _ _

/-! ## Facts about the arithmetic and the filter -/

theorem shl12_lt (a : Nat) : shl12 a < 2 ^ 64 := by
  unfold shl12
  exact Nat.mod_lt _ (by norm_num)

theorem sub64_eq_sub {a b : Nat} (hba : b ≤ a) (ha : a < 2 ^ 64) : sub64 a b = a - b := by
  unfold sub64
  omega

theorem read_addr_va_lt {vmi : vmi_instance_t} {va v : Nat}
    (h : vmi_read_addr_va vmi va = some v) : v < 2 ^ 64 := by
  unfold vmi_read_addr_va at h
  cases hm : vmi.mem va with
  | none => simp [hm] at h
  | some w =>
    simp [hm] at h
    omega

theorem sanity_filter_eq (s e : Nat) : sanity_filter s e = decide (passes_sanity (s, e)) := by
  unfold sanity_filter passes_sanity shr63
  rw [Bool.eq_iff_iff]
  simp only [Bool.and_eq_true, bne_iff_ne, ne_eq, beq_iff_eq, decide_eq_true_eq]
  constructor <;> intro h <;> omega

theorem segment_of_passes {b : Nat × Nat} (h : passes_sanity b) :
    (segment_of b).base_va ≠ 0 ∧ 0 < (segment_of b).size ∧
      (segment_of b).base_va + (segment_of b).size < 2 ^ 63 := by
  obtain ⟨h0, hlt, _, he⟩ := h
  unfold segment_of
  simp only
  omega

theorem root_node (addr s e : Nat) (l r : VadTree) :
    (VadTree.node addr s e l r).root = addr := rfl

theorem preorder_segments_nil : VadTree.nil.preorder_segments = [] := rfl

theorem preorder_segments_node (addr s e : Nat) (l r : VadTree) :
    (VadTree.node addr s e l r).preorder_segments
      = (if passes_sanity (shl12 s, shl12 e) then [segment_of (shl12 s, shl12 e)] else [])
          ++ l.preorder_segments ++ r.preorder_segments := by
  unfold VadTree.preorder_segments VadTree.preorder
  simp only [VadTree.vpns, List.map_cons, List.map_append, List.filter_cons,
    List.filter_append, vad_bounds]
  by_cases h : passes_sanity (shl12 s, shl12 e) <;> simp [h]

/-! ## The process-list walk -/

/-- From the link of node `i`, with `1 ≤ i ≤ k`, no match strictly before `k` and a match
at `k`, the loop returns the handle of node `k`. -/
theorem find_loop_match {vmi : vmi_instance_t} {rekall : windows_rekall_t} {n : Nat}
    {links pdbase : Nat → Nat} (hl : CircularProcessList vmi rekall n links pdbase)
    (pgd k : Nat) (hkn : k < n) (hk : pdbase k = pgd)
    (hfirst : ∀ j, 0 < j → j < k → pdbase j ≠ pgd) :
    ∀ (d i fuel : Nat) (tr : List Event), i + d = k → 0 < i → d < fuel →
      (windows_find_eprocess_pgd_loop vmi rekall pgd (links 1) fuel (links i) tr).map Prod.fst
        = some (sub64 (links k) rekall.eprocess_tasks) := by
  intro d
  induction d with
  | zero =>
    intro i fuel tr hik hi hf
    obtain ⟨fuel, rfl⟩ : ∃ f, fuel = f + 1 := ⟨fuel - 1, by omega⟩
    have hik : i = k := by omega
    subst hik
    have hne : links 1 ≠ links ((i + 1) % n) := by
      intro he
      have h1 : (i + 1) % n < n := Nat.mod_lt _ (by omega)
      have := hl.distinct 1 ((i + 1) % n) (by omega) h1 he
      rcases Nat.lt_or_ge (i + 1) n with h2 | h2
      · rw [Nat.mod_eq_of_lt h2] at this; omega
      · have h3 : i + 1 = n := by omega
        rw [h3, Nat.mod_self] at this; omega
    have hpd := hl.pd i hkn
    unfold pdbase_field at hpd
    simp [windows_find_eprocess_pgd_loop, hl.next i hkn, hne, hpd, hk]
  | succ d ih =>
    intro i fuel tr hik hi hf
    obtain ⟨fuel, rfl⟩ : ∃ f, fuel = f + 1 := ⟨fuel - 1, by omega⟩
    have hin : i < n := by omega
    have hmod : (i + 1) % n = i + 1 := Nat.mod_eq_of_lt (by omega)
    have hne : links 1 ≠ links (i + 1) := by
      intro he
      have := hl.distinct 1 (i + 1) (by omega) (by omega) he
      omega
    have hpd := hl.pd i hin
    unfold pdbase_field at hpd
    have hnm : pdbase i ≠ pgd := hfirst i hi (by omega)
    have hnext := hl.next i hin
    rw [hmod] at hnext
    simp only [windows_find_eprocess_pgd_loop, hnext, hne, hpd, hnm, if_false]
    exact ih (i + 1) fuel _ (by omega) (by omega) (by omega)

/-- From the link of node `i % n`, with `1 ≤ i ≤ n` and no match among the nodes
`i, ..., n - 1`, the loop returns `0` after comparing the page-table base of each of
these nodes once, in list order. -/
theorem find_loop_no_match {vmi : vmi_instance_t} {rekall : windows_rekall_t} {n : Nat}
    {links pdbase : Nat → Nat} (hl : CircularProcessList vmi rekall n links pdbase)
    (pgd : Nat) (hno : ∀ j, j < n → pdbase j ≠ pgd) :
    ∀ (d i fuel : Nat) (tr : List Event), i + d = n → 0 < i → d < fuel →
      ∃ tr', windows_find_eprocess_pgd_loop vmi rekall pgd (links (1 % n)) fuel
          (links (i % n)) tr = some (0, tr') ∧
        tr'.filter Event.is_cmp = tr.filter Event.is_cmp ++
          (List.range' i d).map (fun j => Event.cmp_pdbase (pdbase j) pgd) := by
  intro d
  induction d with
  | zero =>
    intro i fuel tr hik hi hf
    obtain ⟨fuel, rfl⟩ : ∃ f, fuel = f + 1 := ⟨fuel - 1, by omega⟩
    have hin : i = n := by omega
    subst hin
    have hnext := hl.next 0 hi
    simp only [Nat.mod_self, Nat.zero_add]
    refine ⟨tr ++ [Event.read_addr_va (links 0)], ?_, ?_⟩
    · simp [windows_find_eprocess_pgd_loop, hnext]
    · simp [List.filter_append, List.filter_cons, Event.is_cmp]
  | succ d ih =>
    intro i fuel tr hik hi hf
    obtain ⟨fuel, rfl⟩ : ∃ f, fuel = f + 1 := ⟨fuel - 1, by omega⟩
    have hin : i < n := by omega
    have h1 : 1 % n = 1 := Nat.mod_eq_of_lt (by omega)
    have hi' : i % n = i := Nat.mod_eq_of_lt hin
    have hne : links 1 ≠ links ((i + 1) % n) := by
      intro he
      have h2 : (i + 1) % n < n := Nat.mod_lt _ (by omega)
      have := hl.distinct 1 ((i + 1) % n) (by omega) h2 he
      rcases Nat.lt_or_ge (i + 1) n with h3 | h3
      · rw [Nat.mod_eq_of_lt h3] at this; omega
      · have h4 : i + 1 = n := by omega
        rw [h4, Nat.mod_self] at this; omega
    have hpd := hl.pd i hin
    unfold pdbase_field at hpd
    have hnm : pdbase i ≠ pgd := hno i hin
    have hnext := hl.next i hin
    obtain ⟨tr', hrun, hcmp⟩ := ih (i + 1) fuel
      (tr ++ [Event.read_addr_va (links i)] ++
        [Event.read_addr_va (sub64 (add64 (links i) rekall.kprocess_pdbase)
          rekall.eprocess_tasks)] ++ [Event.cmp_pdbase (pdbase i) pgd])
      (by omega) (by omega) (by omega)
    rw [h1] at hrun
    refine ⟨tr', ?_, ?_⟩
    · rw [h1, hi']
      simp only [windows_find_eprocess_pgd_loop, hnext, hne, hpd, hnm, if_false]
      exact hrun
    · rw [hcmp, List.range'_succ]
      simp [List.filter_append, List.filter_cons, Event.is_cmp]

/-- C1: on a circular process list of `n` distinct link nodes whose reads all succeed, if
node `k` is not the head (`0 < k < n`, so `n ≥ 2`) and is the only node whose
page-table-base field equals `pgd` (so the head's differs), `windows_find_eprocess_pgd`
returns the list-link address of node `k` minus the `eprocess_tasks` offset, in wrapping
64-bit arithmetic. -/
theorem windows_find_eprocess_pgd_unique_match (vmi : vmi_instance_t)
    (rekall : windows_rekall_t) (n : Nat) (links pdbase : Nat → Nat) (pgd k fuel : Nat)
    (tr : List Event) (hl : CircularProcessList vmi rekall n links pdbase)
    (hk0 : 0 < k) (hkn : k < n) (hk : pdbase k = pgd)
    (huniq : ∀ j, j < n → pdbase j = pgd → j = k) (hfuel : k ≤ fuel) :
    (windows_find_eprocess_pgd fuel vmi rekall pgd tr).map Prod.fst
      = some (sub64 (links k) rekall.eprocess_tasks) := by
  obtain ⟨h, hsym, hlink0⟩ := hl.head
  have hnext := hl.next 0 (by omega)
  have h1 : (0 + 1) % n = 1 := Nat.mod_eq_of_lt (by omega)
  rw [h1, hlink0] at hnext
  have hpd := hl.pd 0 (by omega)
  rw [hlink0, pdbase_field_head] at hpd
  have hhead : pdbase 0 ≠ pgd := fun he => by
    have := huniq 0 (by omega) he
    omega
  simp only [windows_find_eprocess_pgd, hsym, hnext, hpd, hhead, if_false]
  refine find_loop_match hl pgd k hkn hk ?_ (k - 1) 1 fuel _ (by omega) (by omega) (by omega)
  intro j _ hjk he
  have := huniq j (by omega) he
  omega

/-- C2: on a circular process list of `n ≥ 1` distinct link nodes whose reads all succeed
and none of whose page-table-base fields equals `pgd`, `windows_find_eprocess_pgd` returns
(fuel `n` is enough), its result is `0`, and it makes exactly `n` page-table-base
comparisons: the head's, then that of each of the other `n - 1` nodes, once each. -/
theorem windows_find_eprocess_pgd_no_match (vmi : vmi_instance_t)
    (rekall : windows_rekall_t) (n : Nat) (links pdbase : Nat → Nat) (pgd fuel : Nat)
    (hl : CircularProcessList vmi rekall n links pdbase) (hn : 1 ≤ n)
    (hno : ∀ j, j < n → pdbase j ≠ pgd) (hfuel : n ≤ fuel) :
    ∃ tr', windows_find_eprocess_pgd fuel vmi rekall pgd [] = some (0, tr') ∧
      tr'.countP Event.is_cmp = n ∧
      tr'.filter Event.is_cmp
        = (List.range n).map (fun j => Event.cmp_pdbase (pdbase j) pgd) := by
  obtain ⟨h, hsym, hlink0⟩ := hl.head
  have hnext := hl.next 0 (by omega)
  rw [hlink0] at hnext
  have hpd := hl.pd 0 (by omega)
  rw [hlink0, pdbase_field_head] at hpd
  have hhead : pdbase 0 ≠ pgd := hno 0 (by omega)
  obtain ⟨tr', hrun, hcmp⟩ := find_loop_no_match hl pgd hno (n - 1) 1 fuel
    ([Event.read_addr_ksym "PsInitialSystemProcess"] ++
      [Event.read_addr_va (add64 h rekall.eprocess_tasks)] ++
      [Event.read_addr_va (add64 h rekall.kprocess_pdbase)] ++
      [Event.cmp_pdbase (pdbase 0) pgd]) (by omega) (by omega) (by omega)
  have hfilter : tr'.filter Event.is_cmp
      = (List.range n).map (fun j => Event.cmp_pdbase (pdbase j) pgd) := by
    obtain ⟨m, rfl⟩ : ∃ m, n = m + 1 := ⟨n - 1, by omega⟩
    rw [hcmp, List.range_eq_range', List.range'_succ]
    simp [List.filter_cons, Event.is_cmp]
  refine ⟨tr', ?_, ?_, hfilter⟩
  · simp only [windows_find_eprocess_pgd, hsym, hnext, hpd, hhead, if_false, List.nil_append]
    exact hrun
  · rw [List.countP_eq_length_filter, hfilter]
    simp

theorem list_guest_circular :
    CircularProcessList list_guest demo_rekall 3 list_links list_pdbase := by
  refine ⟨⟨0x50000, by decide, by decide⟩, ?_, ?_, ?_⟩
  · intro i j _ _ h
    unfold list_links at h
    omega
  · intro i hi
    interval_cases i <;> decide
  · intro i hi
    interval_cases i <;> decide

/-- Witness for C1: in `list_guest` the process at `0x52000` (node 2) is the only one whose
page-table base is `0x1cc000`, and the walk returns `0x52000`. -/
theorem windows_find_eprocess_pgd_unique_match_witness :
    CircularProcessList list_guest demo_rekall 3 list_links list_pdbase ∧
      list_pdbase 2 = 0x1cc000 ∧
      (windows_find_eprocess_pgd 2 list_guest demo_rekall 0x1cc000 []).map Prod.fst
        = some 0x52000 :=
  ⟨list_guest_circular, by decide,
    windows_find_eprocess_pgd_unique_match list_guest demo_rekall 3 list_links list_pdbase
      0x1cc000 2 2 [] list_guest_circular (by decide) (by decide) (by decide)
      (by intro j hj h; unfold list_pdbase at h; omega) (by decide)⟩

/-- Witness for C2: in `list_guest` no process has page-table base `0x1dd000`; the walk
returns `0` after three comparisons. -/
theorem windows_find_eprocess_pgd_no_match_witness :
    CircularProcessList list_guest demo_rekall 3 list_links list_pdbase ∧
      ∃ tr', windows_find_eprocess_pgd 3 list_guest demo_rekall 0x1dd000 [] = some (0, tr') ∧
        tr'.countP Event.is_cmp = 3 ∧
        tr'.filter Event.is_cmp
          = (List.range 3).map (fun j => Event.cmp_pdbase (list_pdbase j) 0x1dd000) :=
  ⟨list_guest_circular,
    windows_find_eprocess_pgd_no_match list_guest demo_rekall 3 list_links list_pdbase
      0x1dd000 3 list_guest_circular (by decide)
      (by intro j hj h; unfold list_pdbase at h; omega) (by decide)⟩

/-- C3: `vmi_current_process_windows` returns what `windows_find_eprocess_pgd` returns on
the event's `cr3` when `vmi_current_thread_windows` returns `0`, and also when the thread
is not `0` but the pointer read at `thread + kthread_process` fails; when the thread is not
`0` and that read succeeds it returns the pointer read. -/
theorem vmi_current_process_windows_cases (fuel : Nat) (vmi : vmi_instance_t)
    (rekall : windows_rekall_t) (event : vmi_event_t) (tr : List Event) :
    ((vmi_current_thread_windows vmi rekall event tr).1 = 0 →
      vmi_current_process_windows fuel vmi rekall event tr
        = windows_find_eprocess_pgd fuel vmi rekall event.x86_regs.cr3
            (vmi_current_thread_windows vmi rekall event tr).2) ∧
    ((vmi_current_thread_windows vmi rekall event tr).1 ≠ 0 →
      vmi_read_addr_va vmi
        (add64 (vmi_current_thread_windows vmi rekall event tr).1 rekall.kthread_process)
          = none →
      vmi_current_process_windows fuel vmi rekall event tr
        = windows_find_eprocess_pgd fuel vmi rekall event.x86_regs.cr3
            ((vmi_current_thread_windows vmi rekall event tr).2 ++
              [Event.read_addr_va (add64 (vmi_current_thread_windows vmi rekall event tr).1
                rekall.kthread_process)])) ∧
    (∀ process, (vmi_current_thread_windows vmi rekall event tr).1 ≠ 0 →
      vmi_read_addr_va vmi
        (add64 (vmi_current_thread_windows vmi rekall event tr).1 rekall.kthread_process)
          = some process →
      (vmi_current_process_windows fuel vmi rekall event tr).map Prod.fst = some process) := by
  refine ⟨?_, ?_, ?_⟩
  · intro h
    simp [vmi_current_process_windows, h]
  · intro h hr
    simp [vmi_current_process_windows, h, hr]
  · intro process h hr
    simp [vmi_current_process_windows, h, hr]

/-- C10: when the paging mode of the event's virtual CPU is not IA-32e,
`vmi_current_thread_windows` returns `0` and logs no guest memory read; in IA-32e mode it
returns the pointer read at `gs_base + kpcr_prcb + kprcb_currentthread`, or `0` when that
read fails. -/
theorem vmi_current_thread_windows_cases (vmi : vmi_instance_t) (rekall : windows_rekall_t)
    (event : vmi_event_t) (tr : List Event) :
    (vmi.page_mode event.vcpu_id ≠ page_mode_t.VMI_PM_IA32E →
      (vmi_current_thread_windows vmi rekall event tr).1 = 0 ∧
      (vmi_current_thread_windows vmi rekall event tr).2.filter Event.is_read
        = tr.filter Event.is_read) ∧
    (vmi.page_mode event.vcpu_id = page_mode_t.VMI_PM_IA32E →
      (vmi_current_thread_windows vmi rekall event tr).1
        = (vmi_read_addr_va vmi
            (add64 (add64 event.x86_regs.gs_base rekall.kpcr_prcb)
              rekall.kprcb_currentthread)).getD 0) := by
  refine ⟨?_, ?_⟩
  · intro h
    simp [vmi_current_thread_windows, h, Event.is_read]
  · intro h
    simp only [vmi_current_thread_windows, h, ne_eq, not_true_eq_false, if_false]
    cases vmi_read_addr_va vmi
      (add64 (add64 event.x86_regs.gs_base rekall.kpcr_prcb) rekall.kprcb_currentthread) <;>
      rfl

/-! ## The VAD enumeration -/

/-- On a tree that guest memory encodes, `traverse` returns (fuel above the height is
enough) and appends the specification's preorder segments to the incoming list. -/
theorem traverse_encoded {vmi : vmi_instance_t} {rekall : windows_rekall_t} :
    ∀ (t : VadTree), t.Encoded vmi rekall → ∀ (fuel : Nat) (list : List mem_seg_t)
      (tr : List Event), t.height < fuel →
      ∃ tr', traverse vmi rekall fuel list t.root tr
        = some (list ++ t.preorder_segments, tr') := by
  intro t
  induction t with
  | nil =>
    intro _ fuel list tr hf
    obtain ⟨fuel, rfl⟩ : ∃ f, fuel = f + 1 := ⟨fuel - 1, by omega⟩
    exact ⟨tr, by simp [traverse, VadTree.root, preorder_segments_nil]⟩
  | node addr s e l r ihl ihr =>
    intro henc fuel list tr hf
    obtain ⟨ha, hs, he, hlc, hrc, hlenc, hrenc⟩ := henc
    simp only [VadTree.height] at hf
    obtain ⟨fuel, rfl⟩ : ∃ f, fuel = f + 1 := ⟨fuel - 1, by omega⟩
    have hlf : l.height < fuel := by omega
    have hrf : r.height < fuel := by omega
    simp only [traverse, root_node, ha, if_false, hs, he, hlc, hrc, sanity_filter_eq,
      decide_eq_true_eq]
    obtain ⟨tr1, h1⟩ := ihl hlenc fuel
      (if passes_sanity (shl12 s, shl12 e) then
        list ++ [{ base_va := shl12 s, size := sub64 (shl12 e) (shl12 s) }] else list)
      (tr ++ [Event.read_addr_va (add64 addr rekall.mmvad_startingvpn)] ++
        [Event.read_addr_va (add64 addr rekall.mmvad_endingvpn)] ++
        [Event.read_addr_va (add64 addr rekall.mmvad_leftchild)]) hlf
    rw [h1]
    simp only
    obtain ⟨tr2, h2⟩ := ihr hrenc fuel _
      (tr1 ++ [Event.read_addr_va (add64 addr rekall.mmvad_rightchild)]) hrf
    rw [h2]
    refine ⟨tr2, ?_⟩
    rw [preorder_segments_node]
    by_cases hp : passes_sanity (shl12 s, shl12 e)
    · have hsub : sub64 (shl12 e) (shl12 s) = shl12 e - shl12 s :=
        sub64_eq_sub (Nat.le_of_lt hp.2.1) (shl12_lt e)
      simp [hp, hsub, segment_of]
    · simp [hp]

/-- Whatever guest memory holds, when `traverse` returns it has only appended to the
incoming list, and each appended segment is the segment of a node at a non-zero address
whose start and end reads succeeded with decoded bounds passing the sanity filter. -/
theorem traverse_appends {vmi : vmi_instance_t} {rekall : windows_rekall_t} :
    ∀ (fuel : Nat) (list : List mem_seg_t) (curr_vad : Nat) (tr : List Event)
      (out : List mem_seg_t) (tr' : List Event),
      traverse vmi rekall fuel list curr_vad tr = some (out, tr') →
      ∃ new, out = list ++ new ∧ ∀ seg ∈ new, ∃ node s e, node ≠ 0 ∧
        vmi_read_addr_va vmi (add64 node rekall.mmvad_startingvpn) = some s ∧
        vmi_read_addr_va vmi (add64 node rekall.mmvad_endingvpn) = some e ∧
        passes_sanity (shl12 s, shl12 e) ∧ seg = segment_of (shl12 s, shl12 e) := by
  intro fuel
  induction fuel with
  | zero =>
    intro list curr_vad tr out tr' h
    simp [traverse] at h
  | succ fuel ih =>
    intro list curr_vad tr out tr' h
    unfold traverse at h
    by_cases h0 : curr_vad = 0
    · simp only [h0, if_true, Option.some.injEq, Prod.mk.injEq] at h
      exact ⟨[], by simp [h.1], by simp⟩
    simp only [h0, if_false] at h
    cases hs : vmi_read_addr_va vmi (add64 curr_vad rekall.mmvad_startingvpn) with
    | none =>
      simp only [hs, Option.some.injEq, Prod.mk.injEq] at h
      exact ⟨[], by simp [h.1], by simp⟩
    | some s =>
      cases he : vmi_read_addr_va vmi (add64 curr_vad rekall.mmvad_endingvpn) with
      | none =>
        simp only [hs, he, Option.some.injEq, Prod.mk.injEq] at h
        exact ⟨[], by simp [h.1], by simp⟩
      | some e =>
        simp only [hs, he, sanity_filter_eq, decide_eq_true_eq] at h
        -- the list after the node itself
        have hnode : ∃ new0, (if passes_sanity (shl12 s, shl12 e) then
              list ++ [{ base_va := shl12 s, size := sub64 (shl12 e) (shl12 s) }]
            else list) = list ++ new0 ∧ ∀ seg ∈ new0, ∃ node s e, node ≠ 0 ∧
              vmi_read_addr_va vmi (add64 node rekall.mmvad_startingvpn) = some s ∧
              vmi_read_addr_va vmi (add64 node rekall.mmvad_endingvpn) = some e ∧
              passes_sanity (shl12 s, shl12 e) ∧ seg = segment_of (shl12 s, shl12 e) := by
          by_cases hp : passes_sanity (shl12 s, shl12 e)
          · refine ⟨[segment_of (shl12 s, shl12 e)], ?_, ?_⟩
            · have hsub : sub64 (shl12 e) (shl12 s) = shl12 e - shl12 s :=
                sub64_eq_sub (Nat.le_of_lt hp.2.1) (shl12_lt e)
              simp [hp, hsub, segment_of]
            · intro seg hseg
              simp only [List.mem_singleton] at hseg
              exact ⟨curr_vad, s, e, h0, hs, he, hp, hseg⟩
          · exact ⟨[], by simp [hp], by simp⟩
        obtain ⟨new0, hnew0, hall0⟩ := hnode
        rw [hnew0] at h
        cases hl : vmi_read_addr_va vmi (add64 curr_vad rekall.mmvad_leftchild) with
        | none =>
          simp only [hl, Option.some.injEq, Prod.mk.injEq] at h
          exact ⟨new0, h.1.symm, hall0⟩
        | some next_left =>
          simp only [hl] at h
          split at h
          · simp at h
          · rename_i list1 tr1 hrec
            obtain ⟨new1, hnew1, hall1⟩ := ih _ _ _ _ _ hrec
            cases hr : vmi_read_addr_va vmi (add64 curr_vad rekall.mmvad_rightchild) with
            | none =>
              simp only [hr, Option.some.injEq, Prod.mk.injEq] at h
              refine ⟨new0 ++ new1, by rw [← h.1, hnew1, List.append_assoc], ?_⟩
              intro seg hseg
              rcases List.mem_append.mp hseg with hm | hm
              · exact hall0 seg hm
              · exact hall1 seg hm
            | some next_right =>
              simp only [hr] at h
              obtain ⟨new2, hnew2, hall2⟩ := ih _ _ _ _ _ h
              refine ⟨new0 ++ new1 ++ new2, by
                rw [hnew2, hnew1, List.append_assoc, List.append_assoc, List.append_assoc], ?_⟩
              intro seg hseg
              rcases List.mem_append.mp hseg with hm | hm
              · rcases List.mem_append.mp hm with hm | hm
                · exact hall0 seg hm
                · exact hall1 seg hm
              · exact hall2 seg hm

/-! ## The VAD point lookup -/

theorem root_ne_zero {vmi : vmi_instance_t} {rekall : windows_rekall_t} {t : VadTree}
    (henc : t.Encoded vmi rekall) (hne : t ≠ VadTree.nil) : t.root ≠ 0 := by
  cases t with
  | nil => exact absurd rfl hne
  | node addr s e l r => exact henc.1

theorem ne_nil_of_mem_vpns {t : VadTree} {p : Nat × Nat} (h : p ∈ t.vpns) :
    t ≠ VadTree.nil := by
  intro ht
  subst ht
  simp [VadTree.vpns] at h

/-- On a non-empty tree that guest memory encodes, the lookup loop returns (fuel equal to
the height is enough), and what it returns is the zero segment or the segment of a node of
the tree whose range holds `addr`. -/
theorem find_loop_encoded {vmi : vmi_instance_t} {rekall : windows_rekall_t} (addr : Nat) :
    ∀ (t : VadTree), t.Encoded vmi rekall → t ≠ VadTree.nil →
      ∀ (fuel : Nat) (tr : List Event), t.height ≤ fuel →
      ∃ seg tr', vmi_current_find_segment_windows_loop vmi rekall addr fuel t.root tr
          = some (seg, tr') ∧
        (seg = mem_seg_zero ∨ ∃ p ∈ t.vpns, shl12 p.1 ≤ addr ∧ addr < shl12 p.2 ∧
          seg = segment_of (vad_bounds p)) := by
  intro t
  induction t with
  | nil => intro _ hne; exact absurd rfl hne
  | node a s e l r ihl ihr =>
    intro henc _ fuel tr hf
    obtain ⟨_, hs, he, hlc, hrc, hlenc, hrenc⟩ := henc
    simp only [VadTree.height] at hf
    obtain ⟨fuel, rfl⟩ : ∃ f, fuel = f + 1 := ⟨fuel - 1, by omega⟩
    have hlf : l.height ≤ fuel := by omega
    have hrf : r.height ≤ fuel := by omega
    simp only [vmi_current_find_segment_windows_loop, root_node, hs]
    by_cases hlt : addr < shl12 s
    · simp only [hlt, if_true, hlc]
      by_cases hl0 : l = VadTree.nil
      · subst hl0
        simp only [VadTree.root, if_pos]
        exact ⟨mem_seg_zero, _, rfl, Or.inl rfl⟩
      · have hroot := root_ne_zero hlenc hl0
        simp only [hroot, if_false]
        obtain ⟨seg, tr', hrun, hseg⟩ := ihl hlenc hl0 fuel _ hlf
        refine ⟨seg, tr', hrun, ?_⟩
        rcases hseg with hz | ⟨p, hp, h1, h2, h3⟩
        · exact Or.inl hz
        · exact Or.inr ⟨p, by simp [VadTree.vpns, hp], h1, h2, h3⟩
    · simp only [hlt, if_false, he]
      by_cases hlt2 : addr < shl12 e
      · simp only [hlt2, if_true]
        refine ⟨_, _, rfl, Or.inr ⟨(s, e), by simp [VadTree.vpns], by simpa using hlt,
          hlt2, ?_⟩⟩
        have hsub : sub64 (shl12 e) (shl12 s) = shl12 e - shl12 s :=
          sub64_eq_sub (by omega) (shl12_lt e)
        simp [segment_of, vad_bounds, hsub]
      · simp only [hlt2, if_false, hrc]
        by_cases hr0 : r = VadTree.nil
        · subst hr0
          simp only [VadTree.root, if_pos]
          exact ⟨mem_seg_zero, _, rfl, Or.inl rfl⟩
        · have hroot := root_ne_zero hrenc hr0
          simp only [hroot, if_false]
          obtain ⟨seg, tr', hrun, hseg⟩ := ihr hrenc hr0 fuel _ hrf
          refine ⟨seg, tr', hrun, ?_⟩
          rcases hseg with hz | ⟨p, hp, h1, h2, h3⟩
          · exact Or.inl hz
          · exact Or.inr ⟨p, by simp [VadTree.vpns, hp], h1, h2, h3⟩

theorem shl12_small {x : Nat} (h : x < 2 ^ 52) : shl12 x = x * 4096 := by
  unfold shl12
  omega

/-- On an encoded search tree with disjoint, non-empty ranges and page numbers below
`2 ^ 52`, the lookup loop finds the node whose range holds `addr`. -/
theorem find_loop_ordered {vmi : vmi_instance_t} {rekall : windows_rekall_t} (addr : Nat) :
    ∀ (t : VadTree), t.Encoded vmi rekall → t.Ordered → t.Disjoint →
      (∀ q ∈ t.vpns, q.1 < 2 ^ 52 ∧ q.2 < 2 ^ 52) → (∀ q ∈ t.vpns, q.1 < q.2) →
      ∀ p ∈ t.vpns, shl12 p.1 ≤ addr → addr < shl12 p.2 →
      ∀ (fuel : Nat) (tr : List Event), t.height ≤ fuel →
      ∃ tr', vmi_current_find_segment_windows_loop vmi rekall addr fuel t.root tr
          = some (segment_of (vad_bounds p), tr') := by
  intro t
  induction t with
  | nil =>
    intro _ _ _ _ _ p hp
    simp [VadTree.vpns] at hp
  | node a s e l r ihl ihr =>
    intro henc hord hdisj hsmall hnonempty p hp hlo hhi fuel tr hf
    obtain ⟨_, hs, he, hlc, hrc, hlenc, hrenc⟩ := henc
    obtain ⟨hordl, hordr, hlord, hrord⟩ := hord
    unfold VadTree.Disjoint at hdisj
    simp only [VadTree.vpns, List.pairwise_cons, List.pairwise_append] at hdisj
    obtain ⟨hnode, hldisj, hrdisj, _⟩ := hdisj
    simp only [VadTree.height] at hf
    obtain ⟨fuel, rfl⟩ : ∃ f, fuel = f + 1 := ⟨fuel - 1, by omega⟩
    have hlf : l.height ≤ fuel := by omega
    have hrf : r.height ≤ fuel := by omega
    have hse := hsmall (s, e) (by simp [VadTree.vpns])
    have hne := hnonempty (s, e) (by simp [VadTree.vpns])
    simp only at hse hne
    have hS := shl12_small hse.1
    have hE := shl12_small hse.2
    simp only [vmi_current_find_segment_windows_loop, root_node, hs]
    simp only [VadTree.vpns, List.mem_cons, List.mem_append] at hp
    rcases hp with hp | hp | hp
    · -- the node itself
      subst hp
      have h1 : ¬ addr < shl12 s := by simpa using hlo
      simp only at hhi
      have hsub : sub64 (shl12 e) (shl12 s) = shl12 e - shl12 s :=
        sub64_eq_sub (by omega) (shl12_lt e)
      simp only [h1, if_false, he, hhi, if_true, segment_of, vad_bounds, hsub]
      exact ⟨_, rfl⟩
    · -- a node of the left subtree
      have hpl := hsmall p (by simp [VadTree.vpns, hp])
      have hP1 := shl12_small hpl.1
      have hP2 := shl12_small hpl.2
      have hps := hordl p hp
      have h1 : addr < shl12 s := by
        by_contra hge
        exact hnode p (by simp [hp]) (shl12 s) (by simp) (by simp only; omega)
          (by omega) (by omega)
      have hroot := root_ne_zero hlenc (ne_nil_of_mem_vpns hp)
      simp only [h1, if_true, hlc, hroot, if_false]
      exact ihl hlenc hlord hldisj (fun q hq => hsmall q (by simp [VadTree.vpns, hq]))
        (fun q hq => hnonempty q (by simp [VadTree.vpns, hq])) p hp hlo hhi fuel _ hlf
    · -- a node of the right subtree
      have hpl := hsmall p (by simp [VadTree.vpns, hp])
      have hP1 := shl12_small hpl.1
      have hP2 := shl12_small hpl.2
      have hps := hordr p hp
      have h1 : ¬ addr < shl12 s := by omega
      have h2 : ¬ addr < shl12 e := by
        intro hlt
        exact hnode p (by simp [hp]) addr (by simp only; omega) (by simpa using hlt) hlo hhi
      have hroot := root_ne_zero hrenc (ne_nil_of_mem_vpns hp)
      simp only [h1, if_false, he, h2, hrc, hroot]
      exact ihr hrenc hrord hrdisj (fun q hq => hsmall q (by simp [VadTree.vpns, hq]))
        (fun q hq => hnonempty q (by simp [VadTree.vpns, hq])) p hp hlo hhi fuel _ hrf

/-- When the subsystem is ready, the process resolves to a non-zero handle and the read of
its VAD-root field succeeds, the lookup is the loop started at the masked root. -/
theorem find_segment_resolved {fuel : Nat} {vmi : vmi_instance_t} {rekall : windows_rekall_t}
    {event : vmi_event_t} {tr : List Event} {process v : Nat} (addr : Nat)
    (hproc : (vmi_current_process_windows fuel vmi rekall event tr).map Prod.fst
      = some process) (hp : process ≠ 0)
    (hroot : vmi_read_addr_va vmi (add64 process rekall.eprocess_vadroot) = some v) :
    ∃ tr1, vmi_current_find_segment_windows fuel true vmi rekall event addr tr
      = vmi_current_find_segment_windows_loop vmi rekall addr fuel (mask_fast_ref v) tr1 := by
  cases h : vmi_current_process_windows fuel vmi rekall event tr with
  | none => simp [h] at hproc
  | some res =>
    obtain ⟨process', tr1⟩ := res
    simp only [h, Option.map_some', Option.some.injEq] at hproc
    subst hproc
    exact ⟨tr1 ++ [Event.read_addr_va (add64 process' rekall.eprocess_vadroot)], by
      simp [vmi_current_find_segment_windows, h, hp, hroot]⟩

/-- When the subsystem is ready, the process resolves to a non-zero handle and the read of
its VAD-root field succeeds, the enumeration is `traverse` from the masked root on the
empty list. -/
theorem vad_list_resolved {fuel : Nat} {vmi : vmi_instance_t} {rekall : windows_rekall_t}
    {event : vmi_event_t} {tr : List Event} {process v : Nat} (addr : Nat)
    (hproc : (vmi_current_process_windows fuel vmi rekall event tr).map Prod.fst
      = some process) (hp : process ≠ 0)
    (hroot : vmi_read_addr_va vmi (add64 process rekall.eprocess_vadroot) = some v) :
    ∃ tr1, vmi_current_vad_list_windows fuel true vmi rekall event addr tr
      = traverse vmi rekall fuel [] (mask_fast_ref v) tr1 := by
  cases h : vmi_current_process_windows fuel vmi rekall event tr with
  | none => simp [h] at hproc
  | some res =>
    obtain ⟨process', tr1⟩ := res
    simp only [h, Option.map_some', Option.some.injEq] at hproc
    subst hproc
    exact ⟨tr1 ++ [Event.read_addr_va (add64 process' rekall.eprocess_vadroot)], by
      simp [vmi_current_vad_list_windows, h, hp, hroot]⟩

/-! ## Lookup and enumeration together -/

/-- A node that passes the filter and whose segment covers `addr` has `addr` in its range. -/
theorem range_of_covers {q : Nat × Nat} {addr : Nat} (hq : passes_sanity (vad_bounds q))
    (hc : (segment_of (vad_bounds q)).covers addr = true) :
    shl12 q.1 ≤ addr ∧ addr < shl12 q.2 := by
  obtain ⟨_, hlt, _, _⟩ := hq
  simp only [mem_seg_t.covers, segment_of, vad_bounds, Bool.and_eq_true,
    decide_eq_true_eq] at hc hlt
  omega

theorem covers_of_range {q : Nat × Nat} {addr : Nat} (h1 : shl12 q.1 ≤ addr)
    (h2 : addr < shl12 q.2) : (segment_of (vad_bounds q)).covers addr = true := by
  simp only [mem_seg_t.covers, segment_of, vad_bounds, Bool.and_eq_true, decide_eq_true_eq]
  omega

/-- The enumerated segments of the nodes `ps`: filter, then map. -/
theorem segments_cons (q : Nat × Nat) (ps : List (Nat × Nat)) :
    (((q :: ps).map vad_bounds).filter (fun b => decide (passes_sanity b))).map segment_of
      = (if passes_sanity (vad_bounds q) then [segment_of (vad_bounds q)] else [])
          ++ ((ps.map vad_bounds).filter (fun b => decide (passes_sanity b))).map segment_of := by
  by_cases h : passes_sanity (vad_bounds q) <;> simp [List.filter_cons, h]

theorem mem_segments {ps : List (Nat × Nat)} {T : mem_seg_t}
    (h : T ∈ ((ps.map vad_bounds).filter (fun b => decide (passes_sanity b))).map segment_of) :
    ∃ q ∈ ps, passes_sanity (vad_bounds q) ∧ T = segment_of (vad_bounds q) := by
  simp only [List.mem_map, List.mem_filter, decide_eq_true_eq] at h
  obtain ⟨b, ⟨⟨q, hq, rfl⟩, hpass⟩, rfl⟩ := h
  exact ⟨q, hq, hpass, rfl⟩

/-- Among the enumerated segments of pairwise disjoint nodes, the only one that covers
`addr` is the segment of the node whose range holds `addr`, and it occurs once. -/
theorem covering_segments_eq (addr : Nat) :
    ∀ (ps : List (Nat × Nat)), ps.Pairwise ranges_disjoint → ∀ p ∈ ps,
      shl12 p.1 ≤ addr → addr < shl12 p.2 → passes_sanity (vad_bounds p) →
      ((((ps.map vad_bounds).filter (fun b => decide (passes_sanity b))).map
        segment_of).filter (fun T => T.covers addr)) = [segment_of (vad_bounds p)] := by
  intro ps
  induction ps with
  | nil => intro _ p hp; simp at hp
  | cons q rest ih =>
    intro hpair p hp hlo hhi hpass
    rw [List.pairwise_cons] at hpair
    obtain ⟨hq, hrest⟩ := hpair
    rw [segments_cons, List.filter_append]
    rcases List.mem_cons.mp hp with hpq | hpr
    · subst hpq
      have hnil : ((((rest.map vad_bounds).filter (fun b => decide (passes_sanity b))).map
          segment_of).filter (fun T => T.covers addr)) = [] := by
        rw [List.filter_eq_nil_iff]
        intro T hT hc
        obtain ⟨r, hr, hrpass, rfl⟩ := mem_segments hT
        obtain ⟨h1, h2⟩ := range_of_covers hrpass hc
        exact hq r hr addr hlo hhi h1 h2
      rw [hnil]
      simp [hpass, covers_of_range hlo hhi]
    · have hhead : (if passes_sanity (vad_bounds q) then [segment_of (vad_bounds q)]
          else []).filter (fun T => T.covers addr) = [] := by
        by_cases hqp : passes_sanity (vad_bounds q)
        · have hnc : (segment_of (vad_bounds q)).covers addr = false := by
            cases hc : (segment_of (vad_bounds q)).covers addr with
            | false => rfl
            | true =>
              obtain ⟨h1, h2⟩ := range_of_covers hqp hc
              exact absurd (hq p hpr addr h1 h2 hlo hhi) id
          simp [hqp, hnc]
        · simp [hqp]
      rw [hhead, List.nil_append]
      exact ih hrest p hpr hlo hhi hpass

/-! ## Facts about the concrete guests -/

theorem demo_tree_encoded : demo_tree.Encoded demo_guest demo_rekall := by
  simp only [demo_tree, VadTree.Encoded, VadTree.root]
  decide

theorem demo_tree_ordered : demo_tree.Ordered := by
  simp [demo_tree, VadTree.Ordered, VadTree.vpns]

theorem demo_tree_disjoint : demo_tree.Disjoint := by
  simp only [VadTree.Disjoint, demo_tree, VadTree.vpns, List.nil_append, List.cons_append,
    List.pairwise_cons, List.mem_cons, List.mem_singleton, List.not_mem_nil, forall_eq_or_imp,
    forall_eq, ranges_disjoint, shl12, List.Pairwise.nil, and_true, IsEmpty.forall_iff,
    implies_true]
  refine ⟨⟨?_, ?_⟩, ?_⟩ <;> intro x <;> omega

theorem demo_tree_small : ∀ q ∈ demo_tree.vpns, q.1 < 2 ^ 52 ∧ q.2 < 2 ^ 52 := by
  simp [demo_tree, VadTree.vpns]

theorem demo_tree_nonempty : ∀ q ∈ demo_tree.vpns, q.1 < q.2 := by
  simp [demo_tree, VadTree.vpns]

theorem empty_range_tree_encoded :
    empty_range_tree.Encoded empty_range_guest demo_rekall := by
  simp only [empty_range_tree, VadTree.Encoded, VadTree.root]
  decide

theorem empty_range_tree_ordered : empty_range_tree.Ordered := by
  simp [empty_range_tree, VadTree.Ordered, VadTree.vpns]

theorem empty_range_tree_disjoint : empty_range_tree.Disjoint := by
  simp only [VadTree.Disjoint, empty_range_tree, VadTree.vpns, List.nil_append,
    List.cons_append, List.pairwise_cons, List.mem_cons, List.mem_singleton, List.not_mem_nil,
    forall_eq_or_imp, forall_eq, ranges_disjoint, shl12, List.Pairwise.nil, and_true,
    IsEmpty.forall_iff, implies_true]
  intro x
  omega

theorem high_tree_encoded : high_tree.Encoded high_guest demo_rekall := by
  simp only [high_tree, VadTree.Encoded, VadTree.root]
  decide

/-! ## The claims about the VAD lookup and enumeration -/

/-- C4 (amended): on a guest whose memory encodes a finite search tree of VAD nodes at
non-zero addresses, ordered by starting page number, with pairwise disjoint ranges, page
numbers below `2 ^ 52` and every node's starting page below its ending page, with the
subsystem ready, the process resolved and the root read succeeding, for every `addr` in the
range of a node `vmi_current_find_segment_windows` returns `base_va = start << 12` and
`size = (end << 12) - (start << 12)` of that node. -/
theorem find_segment_finds_node (fuel : Nat) (vmi : vmi_instance_t)
    (rekall : windows_rekall_t) (event : vmi_event_t) (addr : Nat) (tr : List Event)
    (process v : Nat) (t : VadTree) (p : Nat × Nat)
    (hproc : (vmi_current_process_windows fuel vmi rekall event tr).map Prod.fst
      = some process) (hp : process ≠ 0)
    (hroot : vmi_read_addr_va vmi (add64 process rekall.eprocess_vadroot) = some v)
    (hv : mask_fast_ref v = t.root) (henc : t.Encoded vmi rekall) (hord : t.Ordered)
    (hdisj : t.Disjoint) (hsmall : ∀ q ∈ t.vpns, q.1 < 2 ^ 52 ∧ q.2 < 2 ^ 52)
    (hnonempty : ∀ q ∈ t.vpns, q.1 < q.2) (hmem : p ∈ t.vpns) (hlo : shl12 p.1 ≤ addr)
    (hhi : addr < shl12 p.2) (hfuel : t.height ≤ fuel) :
    (vmi_current_find_segment_windows fuel true vmi rekall event addr tr).map Prod.fst
      = some { base_va := shl12 p.1, size := shl12 p.2 - shl12 p.1 } := by
  obtain ⟨tr1, hfs⟩ := find_segment_resolved addr hproc hp hroot
  obtain ⟨tr', hrun⟩ := find_loop_ordered addr t henc hord hdisj hsmall hnonempty p hmem hlo
    hhi fuel tr1 hfuel
  rw [hfs, hv, hrun]
  rfl

/-- Witness for C4 (amended): in `demo_guest` the address `0x35000` is found in the node
with pages `[0x30, 0x40)`. -/
theorem find_segment_finds_node_witness :
    demo_tree.Encoded demo_guest demo_rekall ∧ demo_tree.Ordered ∧ demo_tree.Disjoint ∧
      (∀ q ∈ demo_tree.vpns, q.1 < q.2) ∧
      (vmi_current_find_segment_windows 3 true demo_guest demo_rekall demo_event 0x35000
        []).map Prod.fst = some { base_va := 0x30000, size := 0x10000 } :=
  ⟨demo_tree_encoded, demo_tree_ordered, demo_tree_disjoint, demo_tree_nonempty,
    find_segment_finds_node 3 demo_guest demo_rekall demo_event 0x35000 [] 0x30000 0x40003
      demo_tree (0x30, 0x40) (by decide) (by decide) (by decide) (by decide)
      demo_tree_encoded demo_tree_ordered demo_tree_disjoint demo_tree_small
      demo_tree_nonempty (by decide) (by decide) (by decide) (by decide)⟩

/-- Counterexample to C4 as stated: `empty_range_guest` encodes a search tree ordered by
starting page with pairwise disjoint ranges and small page numbers; `0x15000` lies in the
range `[0x3000, 0x20000)` of the left child, but the top node's range `[0x10000, 0x5000)`
is empty, the lookup turns right there and returns the zero segment. -/
theorem find_segment_misses_behind_empty_range :
    empty_range_tree.Encoded empty_range_guest demo_rekall ∧ empty_range_tree.Ordered ∧
      empty_range_tree.Disjoint ∧
      (∀ q ∈ empty_range_tree.vpns, q.1 < 2 ^ 52 ∧ q.2 < 2 ^ 52) ∧
      (vmi_current_process_windows 3 empty_range_guest demo_rekall demo_event []).map Prod.fst
        = some 0x30000 ∧
      vmi_read_addr_va empty_range_guest (add64 0x30000 demo_rekall.eprocess_vadroot)
        = some 0x40000 ∧
      mask_fast_ref 0x40000 = empty_range_tree.root ∧
      ((0x3, 0x20) ∈ empty_range_tree.vpns ∧ shl12 0x3 ≤ 0x15000 ∧ 0x15000 < shl12 0x20) ∧
      (vmi_current_find_segment_windows 3 true empty_range_guest demo_rekall demo_event
        0x15000 []).map Prod.fst = some mem_seg_zero ∧
      mem_seg_zero ≠ { base_va := shl12 0x3, size := shl12 0x20 - shl12 0x3 } :=
  ⟨empty_range_tree_encoded, empty_range_tree_ordered, empty_range_tree_disjoint,
    by simp [empty_range_tree, VadTree.vpns], by decide, by decide, by decide,
    by decide, by decide, by decide⟩

/-- C5 (the code at the failing input): in `page_zero_guest 0` the VAD-root field of the
process reads `0`, the empty tree, and the reads at address `0` plus the field offsets
succeed; the lookup of `0x1800` does not return the zero segment but `(0x1000, 0x1000)`. -/
theorem find_segment_empty_root_reads_page_zero :
    vmi_read_addr_va (page_zero_guest 0) (add64 0x30000 demo_rekall.eprocess_vadroot)
        = some 0 ∧
      mask_fast_ref 0 = 0 ∧
      (vmi_current_find_segment_windows 3 true (page_zero_guest 0) demo_rekall demo_event
        0x1800 []).map Prod.fst = some { base_va := 0x1000, size := 0x1000 } := by
  decide

/-- On a non-empty tree that guest memory encodes, for an address in no node's range the
lookup returns and its result is the zero segment. -/
theorem find_segment_outside_ranges (fuel : Nat) (vmi : vmi_instance_t)
    (rekall : windows_rekall_t) (event : vmi_event_t) (addr : Nat) (tr : List Event)
    (process v : Nat) (t : VadTree)
    (hproc : (vmi_current_process_windows fuel vmi rekall event tr).map Prod.fst
      = some process) (hp : process ≠ 0)
    (hroot : vmi_read_addr_va vmi (add64 process rekall.eprocess_vadroot) = some v)
    (hv : mask_fast_ref v = t.root) (henc : t.Encoded vmi rekall) (hne : t ≠ VadTree.nil)
    (hout : ∀ p ∈ t.vpns, ¬ (shl12 p.1 ≤ addr ∧ addr < shl12 p.2))
    (hfuel : t.height ≤ fuel) :
    (vmi_current_find_segment_windows fuel true vmi rekall event addr tr).map Prod.fst
      = some mem_seg_zero := by
  obtain ⟨tr1, hfs⟩ := find_segment_resolved addr hproc hp hroot
  obtain ⟨seg, tr', hrun, hseg⟩ := find_loop_encoded addr t henc hne fuel tr1 hfuel
  rw [hfs, hv, hrun]
  rcases hseg with hz | ⟨p, hpm, h1, h2, _⟩
  · rw [hz]; rfl
  · exact absurd ⟨h1, h2⟩ (hout p hpm)

/-- C6 (the code at the failing input): in `page_zero_guest 5` the VAD-root field decodes to
the empty tree, so `0x1800` lies in no node's range, yet the lookup returns
`(0x1000, 0x1000)`, read from address `0`, not the zero segment. -/
theorem find_segment_empty_tree_not_sentinel :
    VadTree.nil.Encoded (page_zero_guest 5) demo_rekall ∧
      vmi_read_addr_va (page_zero_guest 5) (add64 0x30000 demo_rekall.eprocess_vadroot)
        = some 5 ∧
      mask_fast_ref 5 = VadTree.nil.root ∧
      (∀ p ∈ VadTree.nil.vpns, ¬ (shl12 p.1 ≤ 0x1800 ∧ 0x1800 < shl12 p.2)) ∧
      (vmi_current_find_segment_windows 3 true (page_zero_guest 5) demo_rekall demo_event
        0x1800 []).map Prod.fst = some { base_va := 0x1000, size := 0x1000 } ∧
      ({ base_va := 0x1000, size := 0x1000 } : mem_seg_t) ≠ mem_seg_zero :=
  ⟨trivial, by decide, by decide, by simp [VadTree.vpns], by decide, by decide⟩

/-- Counterexample to C7 as stated: `high_guest` encodes a tree of one node with the range
`[2 ^ 63, 2 ^ 63 + 0x1000)`; the lookup of `2 ^ 63 + 0x800` returns that node's segment,
which is not the zero segment, and the enumeration of the same process is empty, because
the node's bounds have bit 63 set. -/
theorem enumeration_omits_located_segment :
    high_tree.Encoded high_guest demo_rekall ∧ high_tree.Ordered ∧ high_tree.Disjoint ∧
      (vmi_current_find_segment_windows 3 true high_guest demo_rekall demo_event
        (2 ^ 63 + 0x800) []).map Prod.fst = some { base_va := 2 ^ 63, size := 0x1000 } ∧
      ({ base_va := 2 ^ 63, size := 0x1000 } : mem_seg_t) ≠ mem_seg_zero ∧
      (vmi_current_vad_list_windows 3 true high_guest demo_rekall demo_event
        (2 ^ 63 + 0x800) []).map Prod.fst = some [] :=
  ⟨high_tree_encoded, by simp [high_tree, VadTree.Ordered, VadTree.vpns],
    by simp [high_tree, VadTree.Disjoint, VadTree.vpns], by decide, by decide, by decide⟩

/-- C7 (amended): on a guest whose memory encodes a non-empty tree of VAD nodes with
pairwise disjoint ranges, if `vmi_current_find_segment_windows` returns for `addr` a
segment `S` with `base_va ≠ 0` and `base_va + size < 2 ^ 63`, then
`vmi_current_vad_list_windows` for the same process returns a list that contains `S`, and
the segments of that list whose range `[base_va, base_va + size)` holds `addr` are `S`
alone. -/
theorem locator_enumerator_agree (fuel : Nat) (vmi : vmi_instance_t)
    (rekall : windows_rekall_t) (event : vmi_event_t) (addr : Nat) (tr : List Event)
    (process v : Nat) (t : VadTree) (S : mem_seg_t)
    (hproc : (vmi_current_process_windows fuel vmi rekall event tr).map Prod.fst
      = some process) (hp : process ≠ 0)
    (hroot : vmi_read_addr_va vmi (add64 process rekall.eprocess_vadroot) = some v)
    (hv : mask_fast_ref v = t.root) (henc : t.Encoded vmi rekall) (hne : t ≠ VadTree.nil)
    (hdisj : t.Disjoint) (hfuel : t.height < fuel)
    (hfind : (vmi_current_find_segment_windows fuel true vmi rekall event addr tr).map
      Prod.fst = some S)
    (hbase : S.base_va ≠ 0) (htop : S.base_va + S.size < 2 ^ 63) :
    ∃ L, (vmi_current_vad_list_windows fuel true vmi rekall event addr tr).map Prod.fst
        = some L ∧ S ∈ L ∧ L.filter (fun T => T.covers addr) = [S] := by
  obtain ⟨tr1, hfs⟩ := find_segment_resolved addr hproc hp hroot
  obtain ⟨seg, tr', hrun, hseg⟩ := find_loop_encoded addr t henc hne fuel tr1
    (Nat.le_of_lt hfuel)
  rw [hfs, hv, hrun] at hfind
  simp only [Option.map_some', Option.some.injEq] at hfind
  subst hfind
  rcases hseg with hz | ⟨p, hpm, hlo, hhi, hS⟩
  · rw [hz] at hbase
    exact absurd rfl hbase
  · subst hS
    have hpass : passes_sanity (vad_bounds p) := by
      simp only [segment_of, vad_bounds] at hbase htop
      simp only [passes_sanity, vad_bounds]
      omega
    obtain ⟨tr2, hvl⟩ := vad_list_resolved addr hproc hp hroot
    obtain ⟨tr3, htrav⟩ := traverse_encoded t henc fuel [] tr2 hfuel
    refine ⟨t.preorder_segments, ?_, ?_, ?_⟩
    · rw [hvl, hv, htrav]
      rfl
    · unfold VadTree.preorder_segments VadTree.preorder
      simp only [List.mem_map, List.mem_filter, decide_eq_true_eq]
      exact ⟨vad_bounds p, ⟨⟨p, hpm, rfl⟩, hpass⟩, rfl⟩
    · exact covering_segments_eq addr t.vpns hdisj p hpm hlo hhi hpass

/-- Witness for C7 (amended): in `demo_guest` the lookup of `0x35000` returns
`(0x30000, 0x10000)`, and the enumeration holds it as its only segment covering
`0x35000`. -/
theorem locator_enumerator_agree_witness :
    demo_tree.Encoded demo_guest demo_rekall ∧ demo_tree.Disjoint ∧
      (vmi_current_find_segment_windows 3 true demo_guest demo_rekall demo_event 0x35000
        []).map Prod.fst = some { base_va := 0x30000, size := 0x10000 } ∧
      ∃ L, (vmi_current_vad_list_windows 3 true demo_guest demo_rekall demo_event 0x35000
          []).map Prod.fst = some L ∧ { base_va := 0x30000, size := 0x10000 } ∈ L ∧
        L.filter (fun T => T.covers 0x35000) = [{ base_va := 0x30000, size := 0x10000 }] :=
  ⟨demo_tree_encoded, demo_tree_disjoint, by decide,
    locator_enumerator_agree 3 demo_guest demo_rekall demo_event 0x35000 [] 0x30000 0x40003
      demo_tree { base_va := 0x30000, size := 0x10000 } (by decide) (by decide) (by decide)
      (by decide) demo_tree_encoded (by decide) demo_tree_disjoint (by decide) (by decide)
      (by decide) (by decide)⟩

/-- What `vmi_current_vad_list_windows` returns is the empty list or what `traverse`
returns from some root on the empty list. -/
theorem vad_list_cases {fuel : Nat} {ready : Bool} {vmi : vmi_instance_t}
    {rekall : windows_rekall_t} {event : vmi_event_t} {addr : Nat} {tr : List Event}
    {out : List mem_seg_t}
    (h : (vmi_current_vad_list_windows fuel ready vmi rekall event addr tr).map Prod.fst
      = some out) :
    out = [] ∨ ∃ root tr1, (traverse vmi rekall fuel [] root tr1).map Prod.fst = some out := by
  unfold vmi_current_vad_list_windows at h
  cases ready with
  | false =>
    simp at h
    exact Or.inl h
  | true =>
    simp only [Bool.not_true, Bool.false_eq_true, if_false] at h
    cases hproc : vmi_current_process_windows fuel vmi rekall event tr with
    | none => simp [hproc] at h
    | some res =>
      obtain ⟨process, tr1⟩ := res
      simp only [hproc] at h
      by_cases hp : process = 0
      · simp [hp] at h
        exact Or.inl h
      · simp only [hp, if_false] at h
        cases hroot : vmi_read_addr_va vmi (add64 process rekall.eprocess_vadroot) with
        | none =>
          simp [hroot] at h
          exact Or.inl h
        | some v =>
          simp only [hroot] at h
          exact Or.inr ⟨_, _, h⟩

/-- C8: whatever guest memory holds, when `traverse` on the empty list or
`vmi_current_vad_list_windows` returns the list `out`, every segment of `out` is the
segment of a node at a non-zero address whose start and end reads succeeded and whose
decoded bounds `start = startingvpn << 12`, `end = endingvpn << 12` pass the filter
(`start ≠ 0`, `start < end`, bit 63 clear in both); so `base_va ≠ 0`, `size > 0` and
`base_va + size < 2 ^ 63`. -/
theorem enumerated_segments_pass_filter (fuel : Nat) (ready : Bool) (vmi : vmi_instance_t)
    (rekall : windows_rekall_t) (event : vmi_event_t) (addr root : Nat) (tr : List Event)
    (out : List mem_seg_t)
    (h : (traverse vmi rekall fuel [] root tr).map Prod.fst = some out ∨
      (vmi_current_vad_list_windows fuel ready vmi rekall event addr tr).map Prod.fst
        = some out) :
    ∀ seg ∈ out,
      (∃ node s e, node ≠ 0 ∧
        vmi_read_addr_va vmi (add64 node rekall.mmvad_startingvpn) = some s ∧
        vmi_read_addr_va vmi (add64 node rekall.mmvad_endingvpn) = some e ∧
        passes_sanity (shl12 s, shl12 e) ∧ seg = segment_of (shl12 s, shl12 e)) ∧
      seg.base_va ≠ 0 ∧ 0 < seg.size ∧ seg.base_va + seg.size < 2 ^ 63 := by
  have key : ∀ root tr1, (traverse vmi rekall fuel [] root tr1).map Prod.fst = some out →
      ∀ seg ∈ out,
        (∃ node s e, node ≠ 0 ∧
          vmi_read_addr_va vmi (add64 node rekall.mmvad_startingvpn) = some s ∧
          vmi_read_addr_va vmi (add64 node rekall.mmvad_endingvpn) = some e ∧
          passes_sanity (shl12 s, shl12 e) ∧ seg = segment_of (shl12 s, shl12 e)) ∧
        seg.base_va ≠ 0 ∧ 0 < seg.size ∧ seg.base_va + seg.size < 2 ^ 63 := by
    intro root tr1 ht seg hseg
    cases hrun : traverse vmi rekall fuel [] root tr1 with
    | none => simp [hrun] at ht
    | some res =>
      obtain ⟨out', tr'⟩ := res
      simp only [hrun, Option.map_some', Option.some.injEq] at ht
      subst ht
      obtain ⟨new, hnew, hall⟩ := traverse_appends fuel [] root tr1 _ tr' hrun
      rw [List.nil_append] at hnew
      subst hnew
      obtain ⟨node, s, e, h0, hs, he, hpass, hsegeq⟩ := hall seg hseg
      refine ⟨⟨node, s, e, h0, hs, he, hpass, hsegeq⟩, ?_⟩
      rw [hsegeq]
      exact segment_of_passes hpass
  rcases h with h | h
  · exact key root tr h
  · rcases vad_list_cases h with hnil | ⟨root', tr1, ht⟩
    · intro seg hseg
      rw [hnil] at hseg
      simp at hseg
    · exact key root' tr1 ht

/-- Witness for C8: `traverse` over `demo_guest` returns two segments; the node with pages
`[0x0, 0x5)` is in the tree and contributes none. -/
theorem enumerated_segments_pass_filter_witness :
    (traverse demo_guest demo_rekall 3 [] 0x40000 []).map Prod.fst
        = some [{ base_va := 0x10000, size := 0x10000 },
            { base_va := 0x30000, size := 0x10000 }] ∧
      ∀ seg ∈ [({ base_va := 0x10000, size := 0x10000 } : mem_seg_t),
          { base_va := 0x30000, size := 0x10000 }],
        (∃ node s e, node ≠ 0 ∧
          vmi_read_addr_va demo_guest (add64 node demo_rekall.mmvad_startingvpn) = some s ∧
          vmi_read_addr_va demo_guest (add64 node demo_rekall.mmvad_endingvpn) = some e ∧
          passes_sanity (shl12 s, shl12 e) ∧ seg = segment_of (shl12 s, shl12 e)) ∧
        seg.base_va ≠ 0 ∧ 0 < seg.size ∧ seg.base_va + seg.size < 2 ^ 63 :=
  ⟨by decide,
    enumerated_segments_pass_filter 3 true demo_guest demo_rekall demo_event 0 0x40000 []
      _ (Or.inl (by decide))⟩

/-- C9: on a guest whose memory encodes a finite binary tree of VAD nodes, `traverse` from
the root on the empty list returns (fuel above the height is enough) exactly the preorder
sequence of the nodes (node, left subtree, right subtree) restricted to those passing the
sanity filter, each mapped to `(start << 12, (end << 12) - (start << 12))`; and so does
`vmi_current_vad_list_windows` when the subsystem is ready, the process resolves, and its
VAD-root field decodes to the root. -/
theorem traverse_preorder (fuel : Nat) (vmi : vmi_instance_t) (rekall : windows_rekall_t)
    (t : VadTree) (tr : List Event) (henc : t.Encoded vmi rekall) (hfuel : t.height < fuel) :
    (traverse vmi rekall fuel [] t.root tr).map Prod.fst = some t.preorder_segments ∧
    ∀ (event : vmi_event_t) (addr process v : Nat),
      (vmi_current_process_windows fuel vmi rekall event tr).map Prod.fst = some process →
      process ≠ 0 →
      vmi_read_addr_va vmi (add64 process rekall.eprocess_vadroot) = some v →
      mask_fast_ref v = t.root →
      (vmi_current_vad_list_windows fuel true vmi rekall event addr tr).map Prod.fst
        = some t.preorder_segments := by
  constructor
  · obtain ⟨tr', h⟩ := traverse_encoded t henc fuel [] tr hfuel
    rw [h]
    rfl
  · intro event addr process v hproc hp hroot hv
    obtain ⟨tr1, hvl⟩ := vad_list_resolved addr hproc hp hroot
    obtain ⟨tr', h⟩ := traverse_encoded t henc fuel [] tr1 hfuel
    rw [hvl, hv, h]
    rfl

/-- Witness for C9: the enumeration of `demo_tree` in `demo_guest`; the left node, visited
second, starts at page `0` and is filtered out. -/
theorem traverse_preorder_witness :
    demo_tree.Encoded demo_guest demo_rekall ∧
      demo_tree.preorder = [(0x10000, 0x20000), (0x0, 0x5000), (0x30000, 0x40000)] ∧
      (traverse demo_guest demo_rekall 3 [] 0x40000 []).map Prod.fst
        = some [{ base_va := 0x10000, size := 0x10000 },
            { base_va := 0x30000, size := 0x10000 }] :=
  ⟨demo_tree_encoded, by decide,
    (traverse_preorder 3 demo_guest demo_rekall demo_tree [] demo_tree_encoded
      (by decide)).1⟩

/-! ## Readiness, the head of the list, and the fast path -/

/-- C11: while `process_vmi_ready` is false, every public accessor returns its sentinel
(`0` for the two PIDs, `NULL` for the name, the zero segment, the empty list) and its log
is the incoming log unchanged: no process resolution and no guest read is made, whatever
the guest and the event. -/
theorem accessors_not_ready (fuel : Nat) (vmi : vmi_instance_t) (rekall : windows_rekall_t)
    (event : vmi_event_t) (addr : Nat) (tr : List Event) :
    vmi_current_pid_windows fuel false vmi rekall event tr = some (0, tr) ∧
    vmi_current_parent_pid_windows fuel false vmi rekall event tr = some (0, tr) ∧
    vmi_current_name_windows fuel false vmi rekall event tr = some (none, tr) ∧
    vmi_current_find_segment_windows fuel false vmi rekall event addr tr
      = some (mem_seg_zero, tr) ∧
    vmi_current_vad_list_windows fuel false vmi rekall event addr tr = some ([], tr) := by
  refine ⟨?_, ?_, ?_, ?_, ?_⟩
  · simp [vmi_current_pid_windows]
  · simp [vmi_current_parent_pid_windows]
  · simp [vmi_current_name_windows]
  · simp [vmi_current_find_segment_windows]
  · simp [vmi_current_vad_list_windows]

/-- C14: when `PsInitialSystemProcess` reads `list_head` and the page-table-base field of
that process reads `pgd`, `windows_find_eprocess_pgd` returns `0`, whatever the rest of
guest memory holds and for every fuel. -/
theorem windows_find_eprocess_pgd_head_match (fuel : Nat) (vmi : vmi_instance_t)
    (rekall : windows_rekall_t) (pgd list_head : Nat) (tr : List Event)
    (hsym : vmi_read_addr_ksym vmi "PsInitialSystemProcess" = some list_head)
    (hpd : vmi_read_addr_va vmi (add64 list_head rekall.kprocess_pdbase) = some pgd) :
    (windows_find_eprocess_pgd fuel vmi rekall pgd tr).map Prod.fst = some 0 := by
  unfold windows_find_eprocess_pgd
  simp only [hsym, hpd]
  cases vmi_read_addr_va vmi (add64 list_head rekall.eprocess_tasks) <;> simp

/-- Witness for C14: in `list_guest` the head process has page-table base `0x1aa000`. -/
theorem windows_find_eprocess_pgd_head_match_witness :
    vmi_read_addr_ksym list_guest "PsInitialSystemProcess" = some 0x50000 ∧
      vmi_read_addr_va list_guest (add64 0x50000 demo_rekall.kprocess_pdbase)
        = some 0x1aa000 ∧
      (windows_find_eprocess_pgd 3 list_guest demo_rekall 0x1aa000 []).map Prod.fst
        = some 0 :=
  ⟨by decide, by decide,
    windows_find_eprocess_pgd_head_match 3 list_guest demo_rekall 0x1aa000 0x50000 []
      (by decide) (by decide)⟩

/-- C17 (the code at the failing input): in `demo_guest` the node with pages
`[0x30, 0x40)` is visited for `addr = 0x40000`, which equals its decoded end; the code
tests `addr < endingvpn`, moves to the right child, which is `0`, and returns the zero
segment, not the node's segment `(0x30000, 0x10000)`. -/
theorem find_segment_end_address_not_matched :
    demo_tree.Encoded demo_guest demo_rekall ∧
      (0x30, 0x40) ∈ demo_tree.vpns ∧ shl12 0x30 ≤ 0x40000 ∧ 0x40000 ≤ shl12 0x40 ∧
      (vmi_current_find_segment_windows 3 true demo_guest demo_rekall demo_event 0x40000
        []).map Prod.fst = some mem_seg_zero ∧
      (vmi_current_find_segment_windows_loop demo_guest demo_rekall 0x40000 1 0x42000
        []).map Prod.fst = some mem_seg_zero ∧
      mem_seg_zero ≠ { base_va := 0x30000, size := 0x10000 } :=
  ⟨demo_tree_encoded, by decide, by decide, by decide, by decide, by decide, by decide⟩

/-- A non-zero thread means the guest is in IA-32e mode and the thread is what the read at
`gs_base + kpcr_prcb + kprcb_currentthread` gave. -/
theorem thread_ne_zero {vmi : vmi_instance_t} {rekall : windows_rekall_t}
    {event : vmi_event_t} {tr : List Event}
    (h : (vmi_current_thread_windows vmi rekall event tr).1 ≠ 0) :
    vmi_current_thread_windows vmi rekall event tr
      = ((vmi_current_thread_windows vmi rekall event tr).1,
          tr ++ [Event.get_page_mode event.vcpu_id,
            Event.read_addr_va (add64 (add64 event.x86_regs.gs_base rekall.kpcr_prcb)
              rekall.kprcb_currentthread)]) := by
  unfold vmi_current_thread_windows at h ⊢
  by_cases hm : vmi.page_mode event.vcpu_id = page_mode_t.VMI_PM_IA32E
  · simp only [hm, ne_eq, not_true_eq_false, if_false] at h ⊢
    cases hr : vmi_read_addr_va vmi
      (add64 (add64 event.x86_regs.gs_base rekall.kpcr_prcb) rekall.kprcb_currentthread) with
    | none => simp [hr] at h
    | some t => simp
  · simp [hm] at h

/-- C19: when `vmi_current_thread_windows` returns a non-zero thread and the read at
`thread + kthread_process` succeeds with the value `0`, `vmi_current_process_windows`
returns `0` and its log ends with the page-mode query and the two fast-path reads: the
slow path, whose first call reads `PsInitialSystemProcess`, is not entered, whatever the
process list holds.  The PID accessors then return `0` and the name accessor `NULL`,
with the same log. -/
theorem vmi_current_process_windows_null_process (fuel : Nat) (vmi : vmi_instance_t)
    (rekall : windows_rekall_t) (event : vmi_event_t) (tr : List Event)
    (hthread : (vmi_current_thread_windows vmi rekall event tr).1 ≠ 0)
    (hread : vmi_read_addr_va vmi
      (add64 (vmi_current_thread_windows vmi rekall event tr).1 rekall.kthread_process)
        = some 0) :
    ∃ log, log = tr ++ [Event.get_page_mode event.vcpu_id,
        Event.read_addr_va (add64 (add64 event.x86_regs.gs_base rekall.kpcr_prcb)
          rekall.kprcb_currentthread),
        Event.read_addr_va (add64 (vmi_current_thread_windows vmi rekall event tr).1
          rekall.kthread_process)] ∧
      vmi_current_process_windows fuel vmi rekall event tr = some (0, log) ∧
      vmi_current_pid_windows fuel true vmi rekall event tr = some (0, log) ∧
      vmi_current_parent_pid_windows fuel true vmi rekall event tr = some (0, log) ∧
      vmi_current_name_windows fuel true vmi rekall event tr = some (none, log) := by
  have hproc : vmi_current_process_windows fuel vmi rekall event tr
      = some (0, tr ++ [Event.get_page_mode event.vcpu_id,
        Event.read_addr_va (add64 (add64 event.x86_regs.gs_base rekall.kpcr_prcb)
          rekall.kprcb_currentthread),
        Event.read_addr_va (add64 (vmi_current_thread_windows vmi rekall event tr).1
          rekall.kthread_process)]) := by
    have hlog := thread_ne_zero hthread
    unfold vmi_current_process_windows
    simp only [hthread, if_false, hread]
    rw [hlog]
    simp
  refine ⟨_, rfl, hproc, ?_, ?_, ?_⟩
  · simp [vmi_current_pid_windows, hproc]
  · simp [vmi_current_parent_pid_windows, hproc]
  · simp [vmi_current_name_windows, hproc]

/-- Witness for C19: in `null_process_guest` the thread is `0x20000` and its process
pointer reads `0`; the result is `0` although the slow path would find the process
`0x52000`, whose page-table base is the event's `cr3`. -/
theorem vmi_current_process_windows_null_process_witness :
    (vmi_current_thread_windows null_process_guest demo_rekall demo_event []).1 = 0x20000 ∧
      (windows_find_eprocess_pgd 3 null_process_guest demo_rekall demo_event.x86_regs.cr3
        []).map Prod.fst = some 0x52000 ∧
      ∃ log, log = [] ++ [Event.get_page_mode demo_event.vcpu_id,
          Event.read_addr_va (add64 (add64 demo_event.x86_regs.gs_base demo_rekall.kpcr_prcb)
            demo_rekall.kprcb_currentthread),
          Event.read_addr_va (add64
            (vmi_current_thread_windows null_process_guest demo_rekall demo_event []).1
            demo_rekall.kthread_process)] ∧
        vmi_current_process_windows 3 null_process_guest demo_rekall demo_event []
          = some (0, log) ∧
        vmi_current_pid_windows 3 true null_process_guest demo_rekall demo_event []
          = some (0, log) ∧
        vmi_current_parent_pid_windows 3 true null_process_guest demo_rekall demo_event []
          = some (0, log) ∧
        vmi_current_name_windows 3 true null_process_guest demo_rekall demo_event []
          = some (none, log) :=
  ⟨by decide, by decide,
    vmi_current_process_windows_null_process 3 null_process_guest demo_rekall demo_event []
      (by decide) (by decide)⟩

/-! ## Outside long mode, and termination of the process-list walk -/

/-- What the loop of the walk returns does not depend on the incoming log. -/
theorem find_eprocess_loop_result_indep (vmi : vmi_instance_t) (rekall : windows_rekall_t)
    (pgd list_head : Nat) :
    ∀ (fuel next_process : Nat) (tr1 tr2 : List Event),
      (windows_find_eprocess_pgd_loop vmi rekall pgd list_head fuel next_process tr1).map
          Prod.fst
        = (windows_find_eprocess_pgd_loop vmi rekall pgd list_head fuel next_process tr2).map
          Prod.fst := by
  intro fuel
  induction fuel with
  | zero => intro _ _ _; rfl
  | succ fuel ih =>
    intro next_process tr1 tr2
    simp only [windows_find_eprocess_pgd_loop]
    cases vmi_read_addr_va vmi next_process with
    | none => rfl
    | some tmp_next =>
      simp only
      by_cases hh : list_head = tmp_next
      · simp [hh]
      · simp only [hh, if_false]
        cases vmi_read_addr_va vmi
            (sub64 (add64 next_process rekall.kprocess_pdbase) rekall.eprocess_tasks) with
        | none => rfl
        | some pdbase =>
          simp only
          by_cases hp : pdbase = pgd
          · simp [hp]
          · simp only [hp, if_false]
            exact ih _ _ _

/-- What `windows_find_eprocess_pgd` returns does not depend on the incoming log. -/
theorem find_eprocess_result_indep (fuel : Nat) (vmi : vmi_instance_t)
    (rekall : windows_rekall_t) (pgd : Nat) (tr1 tr2 : List Event) :
    (windows_find_eprocess_pgd fuel vmi rekall pgd tr1).map Prod.fst
      = (windows_find_eprocess_pgd fuel vmi rekall pgd tr2).map Prod.fst := by
  simp only [windows_find_eprocess_pgd]
  cases vmi_read_addr_ksym vmi "PsInitialSystemProcess" with
  | none => rfl
  | some list_head =>
    simp only
    cases vmi_read_addr_va vmi (add64 list_head rekall.eprocess_tasks) with
    | none => rfl
    | some next_process =>
      simp only
      cases vmi_read_addr_va vmi (add64 list_head rekall.kprocess_pdbase) with
      | none => rfl
      | some pdbase =>
        simp only
        by_cases hp : pdbase = pgd
        · simp [hp]
        · simp only [hp, if_false]
          exact find_eprocess_loop_result_indep vmi rekall pgd next_process fuel _ _ _

/-- Outside IA-32e mode the composite resolution is the slow path on the event's `cr3`. -/
theorem process_outside_long_mode {fuel : Nat} {vmi : vmi_instance_t}
    {rekall : windows_rekall_t} {event : vmi_event_t} (tr : List Event)
    (hmode : vmi.page_mode event.vcpu_id ≠ page_mode_t.VMI_PM_IA32E) :
    vmi_current_process_windows fuel vmi rekall event tr
      = windows_find_eprocess_pgd fuel vmi rekall event.x86_regs.cr3
          (tr ++ [Event.get_page_mode event.vcpu_id]) := by
  simp [vmi_current_process_windows, vmi_current_thread_windows, hmode]

/-- Counterexample to C12 as stated: `pae_guest` is in PAE mode and the subsystem is
ready; the thread resolver returns `0`, the composite resolution falls back to the walk of
the process list, which finds the process `0x52000` by the event's `cr3`, and
`vmi_current_pid_windows` returns its PID `1234`, not `0`. -/
theorem pid_resolved_outside_long_mode :
    pae_guest.page_mode demo_event.vcpu_id ≠ page_mode_t.VMI_PM_IA32E ∧
      (vmi_current_thread_windows pae_guest demo_rekall demo_event []).1 = 0 ∧
      (vmi_current_process_windows 3 pae_guest demo_rekall demo_event []).map Prod.fst
        = some 0x52000 ∧
      (vmi_current_pid_windows 3 true pae_guest demo_rekall demo_event []).map Prod.fst
        = some 1234 := by
  decide

/-- C12 (amended): for every guest that is not in IA-32e mode, with the subsystem ready,
`vmi_current_process_windows` returns what the slow path `windows_find_eprocess_pgd`
returns on the event's `cr3`; whenever that is `0`, each public accessor returns its
sentinel: `0` for the two PIDs, `NULL` for the name, the zero segment and the empty
list. -/
theorem accessors_outside_long_mode (fuel : Nat) (vmi : vmi_instance_t)
    (rekall : windows_rekall_t) (event : vmi_event_t) (addr : Nat) (tr : List Event)
    (hmode : vmi.page_mode event.vcpu_id ≠ page_mode_t.VMI_PM_IA32E)
    (hslow : (windows_find_eprocess_pgd fuel vmi rekall event.x86_regs.cr3 []).map Prod.fst
      = some 0) :
    (vmi_current_process_windows fuel vmi rekall event tr).map Prod.fst
      = (windows_find_eprocess_pgd fuel vmi rekall event.x86_regs.cr3 []).map Prod.fst ∧
    (vmi_current_pid_windows fuel true vmi rekall event tr).map Prod.fst = some 0 ∧
    (vmi_current_parent_pid_windows fuel true vmi rekall event tr).map Prod.fst = some 0 ∧
    (vmi_current_name_windows fuel true vmi rekall event tr).map Prod.fst = some none ∧
    (vmi_current_find_segment_windows fuel true vmi rekall event addr tr).map Prod.fst
      = some mem_seg_zero ∧
    (vmi_current_vad_list_windows fuel true vmi rekall event addr tr).map Prod.fst
      = some [] := by
  have hp : vmi_current_process_windows fuel vmi rekall event tr
      = windows_find_eprocess_pgd fuel vmi rekall event.x86_regs.cr3
          (tr ++ [Event.get_page_mode event.vcpu_id]) := process_outside_long_mode tr hmode
  have hindep := find_eprocess_result_indep fuel vmi rekall event.x86_regs.cr3
    (tr ++ [Event.get_page_mode event.vcpu_id]) []
  rw [← hp] at hindep
  rw [hslow] at hindep
  cases hres : vmi_current_process_windows fuel vmi rekall event tr with
  | none => simp [hres] at hindep
  | some res =>
    obtain ⟨process, tr1⟩ := res
    simp only [hres, Option.map_some', Option.some.injEq] at hindep
    subst hindep
    refine ⟨by rw [hslow]; rfl, ?_, ?_, ?_, ?_, ?_⟩
    · simp [vmi_current_pid_windows, hres]
    · simp [vmi_current_parent_pid_windows, hres]
    · simp [vmi_current_name_windows, hres]
    · simp [vmi_current_find_segment_windows, hres]
    · simp [vmi_current_vad_list_windows, hres]

/-- Witness for C12 (amended): `pae_guest` with an event whose `cr3` is the page-table
base of no process. -/
theorem accessors_outside_long_mode_witness :
    pae_guest.page_mode 0 ≠ page_mode_t.VMI_PM_IA32E ∧
      (vmi_current_pid_windows 3 true pae_guest demo_rekall
        { vcpu_id := 0, x86_regs := { gs_base := 0x10000, cr3 := 0x1dd000 } } []).map
          Prod.fst = some 0 ∧
      (vmi_current_vad_list_windows 3 true pae_guest demo_rekall
        { vcpu_id := 0, x86_regs := { gs_base := 0x10000, cr3 := 0x1dd000 } } 0 []).map
          Prod.fst = some [] :=
  have h := accessors_outside_long_mode 3 pae_guest demo_rekall
    { vcpu_id := 0, x86_regs := { gs_base := 0x10000, cr3 := 0x1dd000 } } 0 []
    (by decide) (by decide)
  ⟨by decide, h.2.1, h.2.2.2.2.2⟩

/-- Along a chain of links `c 0, ..., c m` in which each link reads the next and the read
of the last fails or gives `c 0` again, the loop started at `c i` with `list_head = c 0`
returns within `m - i + 1` iterations. -/
theorem find_loop_terminates {vmi : vmi_instance_t} {rekall : windows_rekall_t} (pgd : Nat)
    (c : Nat → Nat) (m : Nat)
    (hlinks : ∀ i, i < m → vmi_read_addr_va vmi (c i) = some (c (i + 1)))
    (hend : vmi_read_addr_va vmi (c m) = none ∨ vmi_read_addr_va vmi (c m) = some (c 0)) :
    ∀ (d i fuel : Nat) (tr : List Event), i + d = m → d < fuel →
      ∃ r, windows_find_eprocess_pgd_loop vmi rekall pgd (c 0) fuel (c i) tr = some r := by
  intro d
  induction d with
  | zero =>
    intro i fuel tr him hf
    obtain ⟨fuel, rfl⟩ : ∃ f, fuel = f + 1 := ⟨fuel - 1, by omega⟩
    have hi : i = m := by omega
    subst hi
    rcases hend with h | h
    · simp only [windows_find_eprocess_pgd_loop, h]
      exact ⟨_, rfl⟩
    · simp only [windows_find_eprocess_pgd_loop, h, if_true]
      exact ⟨_, rfl⟩
  | succ d ih =>
    intro i fuel tr him hf
    obtain ⟨fuel, rfl⟩ : ∃ f, fuel = f + 1 := ⟨fuel - 1, by omega⟩
    have hnext := hlinks i (by omega)
    simp only [windows_find_eprocess_pgd_loop, hnext]
    by_cases hh : c 0 = c (i + 1)
    · simp only [hh, if_true]
      exact ⟨_, rfl⟩
    · simp only [hh, if_false]
      cases vmi_read_addr_va vmi
          (sub64 (add64 (c i) rekall.kprocess_pdbase) rekall.eprocess_tasks) with
      | none => exact ⟨_, rfl⟩
      | some pdbase =>
        simp only
        by_cases hp : pdbase = pgd
        · simp only [hp, if_true]
          exact ⟨_, rfl⟩
        · simp only [hp, if_false]
          exact ih (i + 1) fuel _ (by omega) (by omega)

/-- In `lasso_guest` the loop never leaves the link `0x52188`. -/
theorem lasso_loop_diverges :
    ∀ (fuel : Nat) (tr : List Event),
      windows_find_eprocess_pgd_loop lasso_guest demo_rekall 0x1dd000 0x51188 fuel 0x52188 tr
        = none := by
  intro fuel
  induction fuel with
  | zero => intro _; rfl
  | succ fuel ih =>
    intro tr
    have h1 : vmi_read_addr_va lasso_guest 0x52188 = some 0x52188 := by decide
    have h2 : sub64 (add64 0x52188 demo_rekall.kprocess_pdbase) demo_rekall.eprocess_tasks
        = 0x52028 := by decide
    have h3 : vmi_read_addr_va lasso_guest 0x52028 = some 0x1cc000 := by decide
    simp only [windows_find_eprocess_pgd_loop, h1, h2, h3]
    simp only [Nat.reduceEqDiff, if_false]
    exact ih _

/-- Counterexample to C13 as stated: in `lasso_guest` every read succeeds, no process has
page-table base `0x1dd000`, and the link of the third process points to itself; the walk
never meets the first link after the head again and returns for no amount of fuel. -/
theorem windows_find_eprocess_pgd_diverges :
    ¬ ∃ fuel r, windows_find_eprocess_pgd fuel lasso_guest demo_rekall 0x1dd000 [] = some r := by
  rintro ⟨fuel, r, h⟩
  have h0 : vmi_read_addr_ksym lasso_guest "PsInitialSystemProcess" = some 0x50000 := by
    decide
  have h1 : vmi_read_addr_va lasso_guest (add64 0x50000 demo_rekall.eprocess_tasks)
      = some 0x51188 := by decide
  have h2 : vmi_read_addr_va lasso_guest (add64 0x50000 demo_rekall.kprocess_pdbase)
      = some 0x1aa000 := by decide
  simp only [windows_find_eprocess_pgd, h0, h1, h2] at h
  simp only [Nat.reduceEqDiff, if_false] at h
  cases fuel with
  | zero => simp [windows_find_eprocess_pgd_loop] at h
  | succ fuel =>
    have h3 : vmi_read_addr_va lasso_guest 0x51188 = some 0x52188 := by decide
    have h4 : sub64 (add64 0x51188 demo_rekall.kprocess_pdbase) demo_rekall.eprocess_tasks
        = 0x51028 := by decide
    have h5 : vmi_read_addr_va lasso_guest 0x51028 = some 0x1bb000 := by decide
    simp only [windows_find_eprocess_pgd_loop, h3, h4, h5] at h
    simp only [Nat.reduceEqDiff, if_false] at h
    rw [lasso_loop_diverges] at h
    exact absurd h (by simp)

/-- C13 (amended): `windows_find_eprocess_pgd` returns, for every `pgd`, on every guest
memory in which the links followed from the first link after the head, `c 0`, lead after
`m` links to a link whose read fails or gives `c 0` again; fuel `m + 1` is enough. -/
theorem windows_find_eprocess_pgd_terminates (fuel : Nat) (vmi : vmi_instance_t)
    (rekall : windows_rekall_t) (pgd : Nat) (tr : List Event) (c : Nat → Nat) (m : Nat)
    (hfirst : ∀ list_head next_process,
      vmi_read_addr_ksym vmi "PsInitialSystemProcess" = some list_head →
      vmi_read_addr_va vmi (add64 list_head rekall.eprocess_tasks) = some next_process →
      next_process = c 0)
    (hlinks : ∀ i, i < m → vmi_read_addr_va vmi (c i) = some (c (i + 1)))
    (hend : vmi_read_addr_va vmi (c m) = none ∨ vmi_read_addr_va vmi (c m) = some (c 0))
    (hfuel : m < fuel) :
    ∃ r, windows_find_eprocess_pgd fuel vmi rekall pgd tr = some r := by
  unfold windows_find_eprocess_pgd
  cases hsym : vmi_read_addr_ksym vmi "PsInitialSystemProcess" with
  | none => exact ⟨_, rfl⟩
  | some list_head =>
    simp only
    cases hnext : vmi_read_addr_va vmi (add64 list_head rekall.eprocess_tasks) with
    | none => exact ⟨_, rfl⟩
    | some next_process =>
      have hc := hfirst list_head next_process hsym hnext
      subst hc
      simp only
      cases vmi_read_addr_va vmi (add64 list_head rekall.kprocess_pdbase) with
      | none => exact ⟨_, rfl⟩
      | some pdbase =>
        simp only
        by_cases hp : pdbase = pgd
        · simp only [hp, if_true]
          exact ⟨_, rfl⟩
        · simp only [hp, if_false]
          exact find_loop_terminates pgd c m hlinks hend m 0 fuel _ (by omega) hfuel

/-- Witness for C13 (amended): the circular list of `list_guest`, whose links from
`0x51188` lead back to `0x51188` after three reads. -/
theorem windows_find_eprocess_pgd_terminates_witness :
    (∀ i, i < 2 → vmi_read_addr_va list_guest
        ((fun i => [0x51188, 0x52188, 0x50188].getD i 0) i)
      = some ((fun i => [0x51188, 0x52188, 0x50188].getD i 0) (i + 1))) ∧
      vmi_read_addr_va list_guest 0x50188 = some 0x51188 ∧
      ∃ r, windows_find_eprocess_pgd 3 list_guest demo_rekall 0x1dd000 [] = some r :=
  have hl : ∀ i, i < 2 → vmi_read_addr_va list_guest
        ((fun i => [0x51188, 0x52188, 0x50188].getD i 0) i)
      = some ((fun i => [0x51188, 0x52188, 0x50188].getD i 0) (i + 1)) := by
    intro i hi
    interval_cases i <;> decide
  ⟨hl, by decide,
    windows_find_eprocess_pgd_terminates 3 list_guest demo_rekall 0x1dd000 []
      (fun i => [0x51188, 0x52188, 0x50188].getD i 0) 2
      (by
        intro list_head next_process h1 h2
        have e1 : vmi_read_addr_ksym list_guest "PsInitialSystemProcess" = some 0x50000 := by
          decide
        rw [e1] at h1
        simp only [Option.some.injEq] at h1
        subst h1
        have e2 : vmi_read_addr_va list_guest (add64 0x50000 demo_rekall.eprocess_tasks)
            = some 0x51188 := by decide
        rw [e2] at h2
        simp only [Option.some.injEq] at h2
        subst h2
        rfl)
      hl (Or.inr (by decide)) (by decide)⟩

/-! ## Partial results of the enumeration, and soundness of the lookup -/

/-- C15: whatever guest memory holds, when `traverse` returns from `node` on the incoming
list `L`, the returned list is `L` followed by further segments, so no read failure
discards what was collected.  And when the four reads at `node` succeed and the traversal
of its left child returns a list `L1` (cut short by failures inside the left subtree or
not), the traversal of `node` goes on with the right child from `L1`: its result is that
of `traverse` on `L1` and the right child, and has `L1` as a prefix. -/
theorem traverse_keeps_collected (fuel : Nat) (vmi : vmi_instance_t)
    (rekall : windows_rekall_t) (L : List mem_seg_t) (node : Nat) (tr : List Event)
    (out : List mem_seg_t)
    (h : (traverse vmi rekall fuel L node tr).map Prod.fst = some out) :
    (∃ new, out = L ++ new) ∧
    ∀ (fuel0 s e left right : Nat) (L1 : List mem_seg_t) (tr1 : List Event),
      fuel = fuel0 + 1 → node ≠ 0 →
      vmi_read_addr_va vmi (add64 node rekall.mmvad_startingvpn) = some s →
      vmi_read_addr_va vmi (add64 node rekall.mmvad_endingvpn) = some e →
      vmi_read_addr_va vmi (add64 node rekall.mmvad_leftchild) = some left →
      vmi_read_addr_va vmi (add64 node rekall.mmvad_rightchild) = some right →
      traverse vmi rekall fuel0
        (if sanity_filter (shl12 s) (shl12 e) = true then
          L ++ [{ base_va := shl12 s, size := sub64 (shl12 e) (shl12 s) }] else L)
        left
        (tr ++ [Event.read_addr_va (add64 node rekall.mmvad_startingvpn)] ++
          [Event.read_addr_va (add64 node rekall.mmvad_endingvpn)] ++
          [Event.read_addr_va (add64 node rekall.mmvad_leftchild)]) = some (L1, tr1) →
      (traverse vmi rekall fuel0 L1 right
        (tr1 ++ [Event.read_addr_va (add64 node rekall.mmvad_rightchild)])).map Prod.fst
          = some out ∧
      ∃ new_right, out = L1 ++ new_right := by
  constructor
  · cases hrun : traverse vmi rekall fuel L node tr with
    | none => simp [hrun] at h
    | some res =>
      obtain ⟨out', tr'⟩ := res
      simp only [hrun, Option.map_some', Option.some.injEq] at h
      subst h
      obtain ⟨new, hnew, _⟩ := traverse_appends fuel L node tr _ tr' hrun
      exact ⟨new, hnew⟩
  · intro fuel0 s e left right L1 tr1 hfuel hnode hs he hl hr hleft
    subst hfuel
    unfold traverse at h
    simp only [hnode, if_false, hs, he, hl, hleft, hr] at h
    refine ⟨h, ?_⟩
    cases hrun : traverse vmi rekall fuel0 L1 right
        (tr1 ++ [Event.read_addr_va (add64 node rekall.mmvad_rightchild)]) with
    | none => simp [hrun] at h
    | some res =>
      obtain ⟨out', tr'⟩ := res
      simp only [hrun, Option.map_some', Option.some.injEq] at h
      subst h
      obtain ⟨new, hnew, _⟩ := traverse_appends fuel0 L1 right _ _ tr' hrun
      exact ⟨new, hnew⟩

/-- Witness for C15: in `broken_left_guest` the reads at the left child `0x41000` fail; the
traversal from `0x40000` on a list holding one segment keeps that segment and the node's
own, and still collects the right child's segment. -/
theorem traverse_keeps_collected_witness :
    vmi_read_addr_va broken_left_guest (add64 0x41000 demo_rekall.mmvad_startingvpn) = none ∧
      (traverse broken_left_guest demo_rekall 3 [{ base_va := 0x1000, size := 0x1000 }]
        0x40000 []).map Prod.fst
        = some [{ base_va := 0x1000, size := 0x1000 }, { base_va := 0x10000, size := 0x10000 },
            { base_va := 0x30000, size := 0x10000 }] ∧
      ∃ new, [({ base_va := 0x1000, size := 0x1000 } : mem_seg_t),
          { base_va := 0x10000, size := 0x10000 }, { base_va := 0x30000, size := 0x10000 }]
        = [{ base_va := 0x1000, size := 0x1000 }] ++ new :=
  ⟨by decide, by decide,
    (traverse_keeps_collected 3 broken_left_guest demo_rekall
      [{ base_va := 0x1000, size := 0x1000 }] 0x40000 [] _ (by decide)).1⟩

/-- Whatever guest memory holds, what the lookup loop returns is the zero segment or a
segment of positive size that holds `addr`, with no overflow in `base_va + size`. -/
theorem find_loop_sound {vmi : vmi_instance_t} {rekall : windows_rekall_t} (addr : Nat) :
    ∀ (fuel curr_vad : Nat) (tr : List Event) (seg : mem_seg_t) (tr' : List Event),
      vmi_current_find_segment_windows_loop vmi rekall addr fuel curr_vad tr
        = some (seg, tr') →
      seg = mem_seg_zero ∨ (0 < seg.size ∧ seg.base_va ≤ addr ∧
        addr < seg.base_va + seg.size ∧ seg.base_va + seg.size < 2 ^ 64) := by
  intro fuel
  induction fuel with
  | zero =>
    intro curr_vad tr seg tr' h
    simp [vmi_current_find_segment_windows_loop] at h
  | succ fuel ih =>
    intro curr_vad tr seg tr' h
    unfold vmi_current_find_segment_windows_loop at h
    cases hs : vmi_read_addr_va vmi (add64 curr_vad rekall.mmvad_startingvpn) with
    | none =>
      simp only [hs, Option.some.injEq, Prod.mk.injEq] at h
      exact Or.inl h.1.symm
    | some s =>
      simp only [hs] at h
      by_cases hlt : addr < shl12 s
      · simp only [hlt, if_true] at h
        cases hl : vmi_read_addr_va vmi (add64 curr_vad rekall.mmvad_leftchild) with
        | none =>
          simp only [hl, Option.some.injEq, Prod.mk.injEq] at h
          exact Or.inl h.1.symm
        | some left =>
          simp only [hl] at h
          by_cases h0 : left = 0
          · simp only [h0, if_true, Option.some.injEq, Prod.mk.injEq] at h
            exact Or.inl h.1.symm
          · simp only [h0, if_false] at h
            exact ih _ _ _ _ h
      · simp only [hlt, if_false] at h
        cases he : vmi_read_addr_va vmi (add64 curr_vad rekall.mmvad_endingvpn) with
        | none =>
          simp only [he, Option.some.injEq, Prod.mk.injEq] at h
          exact Or.inl h.1.symm
        | some e =>
          simp only [he] at h
          by_cases hlt2 : addr < shl12 e
          · simp only [hlt2, if_true, Option.some.injEq, Prod.mk.injEq] at h
            have hsub : sub64 (shl12 e) (shl12 s) = shl12 e - shl12 s :=
              sub64_eq_sub (by omega) (shl12_lt e)
            have hE := shl12_lt e
            rw [← h.1, hsub]
            right
            simp only
            omega
          · simp only [hlt2, if_false] at h
            cases hr : vmi_read_addr_va vmi (add64 curr_vad rekall.mmvad_rightchild) with
            | none =>
              simp only [hr, Option.some.injEq, Prod.mk.injEq] at h
              exact Or.inl h.1.symm
            | some right =>
              simp only [hr] at h
              by_cases h0 : right = 0
              · simp only [h0, if_true, Option.some.injEq, Prod.mk.injEq] at h
                exact Or.inl h.1.symm
              · simp only [h0, if_false] at h
                exact ih _ _ _ _ h

/-- What `vmi_current_find_segment_windows` returns is the zero segment or what its loop
returns from some root. -/
theorem find_segment_cases {fuel : Nat} {ready : Bool} {vmi : vmi_instance_t}
    {rekall : windows_rekall_t} {event : vmi_event_t} {addr : Nat} {tr : List Event}
    {seg : mem_seg_t}
    (h : (vmi_current_find_segment_windows fuel ready vmi rekall event addr tr).map Prod.fst
      = some seg) :
    seg = mem_seg_zero ∨ ∃ root tr1 tr',
      vmi_current_find_segment_windows_loop vmi rekall addr fuel root tr1 = some (seg, tr') := by
  unfold vmi_current_find_segment_windows at h
  cases ready with
  | false =>
    simp at h
    exact Or.inl h.symm
  | true =>
    simp only [Bool.not_true, Bool.false_eq_true, if_false] at h
    cases hproc : vmi_current_process_windows fuel vmi rekall event tr with
    | none => simp [hproc] at h
    | some res =>
      obtain ⟨process, tr1⟩ := res
      simp only [hproc] at h
      by_cases hp : process = 0
      · simp [hp] at h
        exact Or.inl h.symm
      · simp only [hp, if_false] at h
        cases hroot : vmi_read_addr_va vmi (add64 process rekall.eprocess_vadroot) with
        | none =>
          simp [hroot] at h
          exact Or.inl h.symm
        | some v =>
          simp only [hroot] at h
          cases hrun : vmi_current_find_segment_windows_loop vmi rekall addr fuel
              (mask_fast_ref v)
              (tr1 ++ [Event.read_addr_va (add64 process rekall.eprocess_vadroot)]) with
          | none => simp [hrun] at h
          | some res =>
            obtain ⟨seg', tr'⟩ := res
            simp only [hrun, Option.map_some', Option.some.injEq] at h
            subst h
            exact Or.inr ⟨_, _, _, hrun⟩

/-- C18: for every guest memory and every `addr`, when `vmi_current_find_segment_windows`
returns, its result is the zero segment `(0, 0)` or a segment with `size > 0` and
`base_va ≤ addr < base_va + size`, where `base_va + size` does not overflow 64 bits; the
shape of the tree is not assumed. -/
theorem find_segment_result_holds_addr (fuel : Nat) (ready : Bool) (vmi : vmi_instance_t)
    (rekall : windows_rekall_t) (event : vmi_event_t) (addr : Nat) (tr : List Event)
    (seg : mem_seg_t)
    (h : (vmi_current_find_segment_windows fuel ready vmi rekall event addr tr).map Prod.fst
      = some seg) :
    seg = mem_seg_zero ∨ (0 < seg.size ∧ seg.base_va ≤ addr ∧
      addr < seg.base_va + seg.size ∧ seg.base_va + seg.size < 2 ^ 64) := by
  rcases find_segment_cases h with hz | ⟨root, tr1, tr', hrun⟩
  · exact Or.inl hz
  · exact find_loop_sound addr fuel root tr1 seg tr' hrun

/-- Witness for C18: the lookup of `0x35000` in `demo_guest`. -/
theorem find_segment_result_holds_addr_witness :
    (vmi_current_find_segment_windows 3 true demo_guest demo_rekall demo_event 0x35000
        []).map Prod.fst = some { base_va := 0x30000, size := 0x10000 } ∧
      (({ base_va := 0x30000, size := 0x10000 } : mem_seg_t) = mem_seg_zero ∨
        (0 < (0x10000 : Nat) ∧ (0x30000 : Nat) ≤ 0x35000 ∧
          (0x35000 : Nat) < 0x30000 + 0x10000 ∧ (0x30000 : Nat) + 0x10000 < 2 ^ 64)) :=
  ⟨by decide,
    find_segment_result_holds_addr 3 true demo_guest demo_rekall demo_event 0x35000 []
      { base_va := 0x30000, size := 0x10000 } (by decide)⟩

/-! ## The masked VAD root -/

theorem mask_literal : (0xFFFFFFFFFFFFFFF8 : Nat) = (2 ^ 61 - 1) <<< 3 := by decide

/-- The mask clears exactly the low 3 bits of a 64-bit value. -/
theorem mask_fast_ref_eq {v : Nat} (hv : v < 2 ^ 64) : mask_fast_ref v = v / 8 * 8 := by
  unfold mask_fast_ref
  rw [mask_literal]
  apply Nat.eq_of_testBit_eq
  intro i
  have h8 : v / 8 * 8 = (v >>> 3) <<< 3 := by
    rw [Nat.shiftRight_eq_div_pow, Nat.shiftLeft_eq]
  rw [h8, Nat.testBit_and, Nat.testBit_shiftLeft, Nat.testBit_shiftLeft,
    Nat.testBit_two_pow_sub_one, Nat.testBit_shiftRight]
  by_cases h3 : 3 ≤ i
  · have e : 3 + (i - 3) = i := by omega
    rw [e]
    by_cases h64 : i < 64
    · have : i - 3 < 61 := by omega
      simp [h3, this]
    · have hb : v.testBit i = false :=
        Nat.testBit_lt_two_pow
          (Nat.lt_of_lt_of_le hv (Nat.pow_le_pow_right (by norm_num) (by omega)))
      simp [hb]
  · simp [h3]

theorem sub64_self_lt (a : Nat) : sub64 a a < 8 := by
  unfold sub64
  omega

theorem read_agree {vmi1 vmi2 : vmi_instance_t} {a va : Nat} (h : agree_off_byte vmi1 vmi2 a)
    (hva : ¬ sub64 a va < 8) : vmi_read_addr_va vmi2 va = vmi_read_addr_va vmi1 va := by
  unfold vmi_read_addr_va
  rw [h.2.2 va hva]

theorem ksym_agree {vmi1 vmi2 : vmi_instance_t} {a : Nat} (h : agree_off_byte vmi1 vmi2 a) :
    vmi_read_addr_ksym vmi2 "PsInitialSystemProcess"
      = vmi_read_addr_ksym vmi1 "PsInitialSystemProcess" := by
  unfold vmi_read_addr_ksym
  rw [h.2.1]

theorem covers_read_snoc (a va : Nat) (tr : List Event) :
    (tr ++ [Event.read_addr_va va]).countP (Event.covers a)
      = tr.countP (Event.covers a) + (if sub64 a va < 8 then 1 else 0) := by
  rw [List.countP_append]
  by_cases h : sub64 a va < 8 <;> simp [List.countP_cons, Event.covers, h]

theorem covers_cmp_snoc (a p q : Nat) (tr : List Event) :
    (tr ++ [Event.cmp_pdbase p q]).countP (Event.covers a)
      = tr.countP (Event.covers a) := by
  rw [List.countP_append]
  simp [List.countP_cons, Event.covers]

theorem covers_ksym_snoc (a : Nat) (sym : String) (tr : List Event) :
    (tr ++ [Event.read_addr_ksym sym]).countP (Event.covers a)
      = tr.countP (Event.covers a) := by
  rw [List.countP_append]
  simp [List.countP_cons, Event.covers]

theorem covers_mode_snoc (a vcpu : Nat) (tr : List Event) :
    (tr ++ [Event.get_page_mode vcpu]).countP (Event.covers a)
      = tr.countP (Event.covers a) := by
  rw [List.countP_append]
  simp [List.countP_cons, Event.covers]

/-- The lookup loop only extends the log. -/
theorem find_segment_loop_count {vmi : vmi_instance_t} {rekall : windows_rekall_t}
    (addr a : Nat) :
    ∀ (fuel curr_vad : Nat) (tr : List Event) (seg : mem_seg_t) (tr' : List Event),
      vmi_current_find_segment_windows_loop vmi rekall addr fuel curr_vad tr
        = some (seg, tr') →
      tr.countP (Event.covers a) ≤ tr'.countP (Event.covers a) := by
  intro fuel
  induction fuel with
  | zero =>
    intro curr_vad tr seg tr' h
    simp [vmi_current_find_segment_windows_loop] at h
  | succ fuel ih =>
    intro curr_vad tr seg tr' h
    simp only [vmi_current_find_segment_windows_loop] at h
    repeat' split at h
    all_goals first
      | (simp only [Option.some.injEq, Prod.mk.injEq] at h
         obtain ⟨_, rfl⟩ := h
         simp only [covers_read_snoc]
         omega)
      | (have hrec := ih _ _ _ _ h
         simp only [covers_read_snoc] at hrec
         omega)

/-- On two guests that agree except at `a`, a run of the lookup loop that does not read
`a` gives the same result and log on both. -/
theorem find_segment_loop_agree {vmi1 vmi2 : vmi_instance_t} {rekall : windows_rekall_t}
    {a : Nat} (hag : agree_off_byte vmi1 vmi2 a) (addr : Nat) :
    ∀ (fuel curr_vad : Nat) (tr : List Event) (seg : mem_seg_t) (tr' : List Event),
      vmi_current_find_segment_windows_loop vmi1 rekall addr fuel curr_vad tr
        = some (seg, tr') →
      tr'.countP (Event.covers a) = tr.countP (Event.covers a) →
      vmi_current_find_segment_windows_loop vmi2 rekall addr fuel curr_vad tr
        = some (seg, tr') := by
  intro fuel
  induction fuel with
  | zero =>
    intro curr_vad tr seg tr' h
    simp [vmi_current_find_segment_windows_loop] at h
  | succ fuel ih =>
    intro curr_vad tr seg tr' h hc
    simp only [vmi_current_find_segment_windows_loop] at h ⊢
    by_cases hs : sub64 a (add64 curr_vad rekall.mmvad_startingvpn) < 8 <;>
      by_cases hl : sub64 a (add64 curr_vad rekall.mmvad_leftchild) < 8 <;>
      by_cases he : sub64 a (add64 curr_vad rekall.mmvad_endingvpn) < 8 <;>
      by_cases hr : sub64 a (add64 curr_vad rekall.mmvad_rightchild) < 8
    all_goals repeat' split at h
    all_goals first
      | (simp only [Option.some.injEq, Prod.mk.injEq] at h
         obtain ⟨rfl, rfl⟩ := h
         simp only [covers_read_snoc, hs, hl, he, hr, if_true, if_false] at hc
         first
           | (exfalso; omega)
           | simp only [read_agree hag, ne_eq, not_false_eq_true, *, if_true, if_false])
      | (have hrec := find_segment_loop_count addr a _ _ _ _ _ h
         simp only [covers_read_snoc, hs, hl, he, hr, if_true, if_false] at hrec
         first
           | (exfalso; omega)
           | (simp only [read_agree hag, ne_eq, not_false_eq_true, *, if_true, if_false]
              refine ih _ _ _ _ h ?_
              simp only [covers_read_snoc, hs, hl, he, hr, if_true, if_false]
              omega))

/-- The enumeration only extends the log. -/
theorem traverse_count {vmi : vmi_instance_t} {rekall : windows_rekall_t} (a : Nat) :
    ∀ (fuel : Nat) (list : List mem_seg_t) (curr_vad : Nat) (tr : List Event)
      (out : List mem_seg_t) (tr' : List Event),
      traverse vmi rekall fuel list curr_vad tr = some (out, tr') →
      tr.countP (Event.covers a) ≤ tr'.countP (Event.covers a) := by
  intro fuel
  induction fuel with
  | zero =>
    intro list curr_vad tr out tr' h
    simp [traverse] at h
  | succ fuel ih =>
    intro list curr_vad tr out tr' h
    simp only [traverse] at h
    repeat' split at h
    all_goals first
      | (simp at h; done)
      | (revert h
         have hL := ih _ _ _ _ _ ‹traverse vmi rekall fuel _ _ _ = some _›
         intro h
         simp only [covers_read_snoc] at hL
         first
           | (simp only [Option.some.injEq, Prod.mk.injEq] at h
              obtain ⟨_, rfl⟩ := h
              simp only [covers_read_snoc]
              omega)
           | (have hR := ih _ _ _ _ _ h
              simp only [covers_read_snoc] at hR
              omega))
      | (simp only [Option.some.injEq, Prod.mk.injEq] at h
         obtain ⟨_, rfl⟩ := h
         try simp only [covers_read_snoc]
         omega)

/-- On two guests that agree except at `a`, a run of the enumeration that does not read
`a` gives the same result and log on both. -/
theorem traverse_agree {vmi1 vmi2 : vmi_instance_t} {rekall : windows_rekall_t}
    {a : Nat} (hag : agree_off_byte vmi1 vmi2 a) :
    ∀ (fuel : Nat) (list : List mem_seg_t) (curr_vad : Nat) (tr : List Event)
      (out : List mem_seg_t) (tr' : List Event),
      traverse vmi1 rekall fuel list curr_vad tr = some (out, tr') →
      tr'.countP (Event.covers a) = tr.countP (Event.covers a) →
      traverse vmi2 rekall fuel list curr_vad tr = some (out, tr') := by
  intro fuel
  induction fuel with
  | zero =>
    intro list curr_vad tr out tr' h
    simp [traverse] at h
  | succ fuel ih =>
    intro list curr_vad tr out tr' h hc
    simp only [traverse] at h ⊢
    by_cases hs : sub64 a (add64 curr_vad rekall.mmvad_startingvpn) < 8 <;>
      by_cases hl : sub64 a (add64 curr_vad rekall.mmvad_leftchild) < 8 <;>
      by_cases he : sub64 a (add64 curr_vad rekall.mmvad_endingvpn) < 8 <;>
      by_cases hr : sub64 a (add64 curr_vad rekall.mmvad_rightchild) < 8
    all_goals repeat' split at h
    all_goals first
      | (simp at h; done)
      | (revert h
         have hleft := ‹traverse vmi1 rekall fuel _ _ _ = some _›
         intro h
         have hL := traverse_count a _ _ _ _ _ _ hleft
         simp only [covers_read_snoc, hs, hl, he, hr, if_true, if_false] at hL
         first
           | (simp only [Option.some.injEq, Prod.mk.injEq] at h
              obtain ⟨rfl, rfl⟩ := h
              simp only [covers_read_snoc, hs, hl, he, hr, if_true, if_false] at hc
              first
                | (exfalso; omega)
                | (have hleft2 := ih _ _ _ _ _ hleft (by
                     simp only [covers_read_snoc, hs, hl, he, hr, if_true, if_false]
                     omega)
                   simp only [read_agree hag, ne_eq, not_false_eq_true, *, if_true,
                     if_false, Bool.false_eq_true, eq_self_iff_true]))
           | (have hR := traverse_count a _ _ _ _ _ _ h
              simp only [covers_read_snoc, hs, hl, he, hr, if_true, if_false] at hR
              first
                | (exfalso; omega)
                | (have hleft2 := ih _ _ _ _ _ hleft (by
                     simp only [covers_read_snoc, hs, hl, he, hr, if_true, if_false]
                     omega)
                   simp only [read_agree hag, ne_eq, not_false_eq_true, *, if_true,
                     if_false, Bool.false_eq_true, eq_self_iff_true]
                   refine ih _ _ _ _ _ h ?_
                   simp only [covers_read_snoc, hs, hl, he, hr, if_true, if_false]
                   omega)))
      | (simp only [Option.some.injEq, Prod.mk.injEq] at h
         obtain ⟨rfl, rfl⟩ := h
         try simp only [covers_read_snoc, hs, hl, he, hr, if_true, if_false] at hc
         first
           | (exfalso; omega)
           | simp only [read_agree hag, ne_eq, not_false_eq_true, *, if_true, if_false,
             Bool.false_eq_true, eq_self_iff_true])

/-- The walk of the process list only extends the log. -/
theorem find_eprocess_loop_count {vmi : vmi_instance_t} {rekall : windows_rekall_t}
    (pgd list_head a : Nat) :
    ∀ (fuel next_process : Nat) (tr : List Event) (r : Nat) (tr' : List Event),
      windows_find_eprocess_pgd_loop vmi rekall pgd list_head fuel next_process tr
        = some (r, tr') →
      tr.countP (Event.covers a) ≤ tr'.countP (Event.covers a) := by
  intro fuel
  induction fuel with
  | zero =>
    intro next_process tr r tr' h
    simp [windows_find_eprocess_pgd_loop] at h
  | succ fuel ih =>
    intro next_process tr r tr' h
    simp only [windows_find_eprocess_pgd_loop] at h
    repeat' split at h
    all_goals first
      | (simp only [Option.some.injEq, Prod.mk.injEq] at h
         obtain ⟨_, rfl⟩ := h
         simp only [covers_read_snoc, covers_cmp_snoc]
         omega)
      | (have hrec := ih _ _ _ _ h
         simp only [covers_read_snoc, covers_cmp_snoc] at hrec
         omega)

/-- On two guests that agree except at `a`, a run of the loop of the walk that does not
read `a` gives the same result and log on both. -/
theorem find_eprocess_loop_agree {vmi1 vmi2 : vmi_instance_t} {rekall : windows_rekall_t}
    {a : Nat} (hag : agree_off_byte vmi1 vmi2 a) (pgd list_head : Nat) :
    ∀ (fuel next_process : Nat) (tr : List Event) (r : Nat) (tr' : List Event),
      windows_find_eprocess_pgd_loop vmi1 rekall pgd list_head fuel next_process tr
        = some (r, tr') →
      tr'.countP (Event.covers a) = tr.countP (Event.covers a) →
      windows_find_eprocess_pgd_loop vmi2 rekall pgd list_head fuel next_process tr
        = some (r, tr') := by
  intro fuel
  induction fuel with
  | zero =>
    intro next_process tr r tr' h
    simp [windows_find_eprocess_pgd_loop] at h
  | succ fuel ih =>
    intro next_process tr r tr' h hc
    simp only [windows_find_eprocess_pgd_loop] at h ⊢
    by_cases hn : sub64 a next_process < 8 <;>
      by_cases hp : sub64 a
        (sub64 (add64 next_process rekall.kprocess_pdbase) rekall.eprocess_tasks) < 8
    all_goals repeat' split at h
    all_goals first
      | (simp only [Option.some.injEq, Prod.mk.injEq] at h
         obtain ⟨rfl, rfl⟩ := h
         simp only [covers_read_snoc, covers_cmp_snoc, hn, hp, if_true, if_false] at hc
         first
           | (exfalso; omega)
           | simp only [read_agree hag, ne_eq, not_false_eq_true, *, if_true, if_false])
      | (have hrec := find_eprocess_loop_count pgd list_head a _ _ _ _ _ h
         simp only [covers_read_snoc, covers_cmp_snoc, hn, hp, if_true, if_false] at hrec
         first
           | (exfalso; omega)
           | (simp only [read_agree hag, ne_eq, not_false_eq_true, *, if_true, if_false]
              refine ih _ _ _ _ h ?_
              simp only [covers_read_snoc, covers_cmp_snoc, hn, hp, if_true, if_false]
              omega))

/-- The walk `windows_find_eprocess_pgd` only extends the log. -/
theorem find_eprocess_count {vmi : vmi_instance_t} {rekall : windows_rekall_t}
    (fuel pgd a : Nat) (tr : List Event) (r : Nat) (tr' : List Event)
    (h : windows_find_eprocess_pgd fuel vmi rekall pgd tr = some (r, tr')) :
    tr.countP (Event.covers a) ≤ tr'.countP (Event.covers a) := by
  simp only [windows_find_eprocess_pgd] at h
  repeat' split at h
  all_goals first
    | (simp only [Option.some.injEq, Prod.mk.injEq] at h
       obtain ⟨_, rfl⟩ := h
       simp only [covers_read_snoc, covers_cmp_snoc, covers_ksym_snoc]
       omega)
    | (have hrec := find_eprocess_loop_count pgd _ a _ _ _ _ _ h
       simp only [covers_read_snoc, covers_cmp_snoc, covers_ksym_snoc] at hrec
       omega)

/-- On two guests that agree except at `a`, a walk that does not read `a` gives the same
result and log on both. -/
theorem find_eprocess_agree {vmi1 vmi2 : vmi_instance_t} {rekall : windows_rekall_t}
    {a : Nat} (hag : agree_off_byte vmi1 vmi2 a) (fuel pgd : Nat) (tr : List Event) (r : Nat)
    (tr' : List Event)
    (h : windows_find_eprocess_pgd fuel vmi1 rekall pgd tr = some (r, tr'))
    (hc : tr'.countP (Event.covers a) = tr.countP (Event.covers a)) :
    windows_find_eprocess_pgd fuel vmi2 rekall pgd tr = some (r, tr') := by
  simp only [windows_find_eprocess_pgd, ksym_agree hag] at h ⊢
  cases hsym : vmi_read_addr_ksym vmi1 "PsInitialSystemProcess" with
  | none =>
    simp only [hsym] at h ⊢
    exact h
  | some list_head =>
    simp only [hsym] at h ⊢
    by_cases ht : sub64 a (add64 list_head rekall.eprocess_tasks) < 8 <;>
      by_cases hp : sub64 a (add64 list_head rekall.kprocess_pdbase) < 8
    all_goals repeat' split at h
    all_goals first
      | (simp only [Option.some.injEq, Prod.mk.injEq] at h
         obtain ⟨rfl, rfl⟩ := h
         simp only [covers_read_snoc, covers_cmp_snoc, covers_ksym_snoc, ht, hp, if_true,
           if_false] at hc
         first
           | (exfalso; omega)
           | simp only [read_agree hag, ne_eq, not_false_eq_true, *, if_true, if_false])
      | (have hrec := find_eprocess_loop_count pgd _ a _ _ _ _ _ h
         simp only [covers_read_snoc, covers_cmp_snoc, covers_ksym_snoc, ht, hp, if_true,
           if_false] at hrec
         first
           | (exfalso; omega)
           | (simp only [read_agree hag, ne_eq, not_false_eq_true, *, if_true, if_false]
              refine find_eprocess_loop_agree hag pgd _ _ _ _ _ _ h ?_
              simp only [covers_read_snoc, covers_cmp_snoc, covers_ksym_snoc, ht, hp, if_true,
                if_false]
              omega))

/-- The thread resolver only extends the log. -/
theorem thread_count (vmi : vmi_instance_t) (rekall : windows_rekall_t) (event : vmi_event_t)
    (a : Nat) (tr : List Event) :
    tr.countP (Event.covers a)
      ≤ (vmi_current_thread_windows vmi rekall event tr).2.countP (Event.covers a) := by
  simp only [vmi_current_thread_windows]
  repeat' split
  all_goals
    simp only [covers_read_snoc, covers_mode_snoc]
    omega

/-- On two guests that agree except at `a`, a thread resolution that does not read `a`
gives the same result and log on both. -/
theorem thread_agree {vmi1 vmi2 : vmi_instance_t} {a : Nat}
    (hag : agree_off_byte vmi1 vmi2 a) (rekall : windows_rekall_t) (event : vmi_event_t)
    (tr : List Event)
    (hc : (vmi_current_thread_windows vmi1 rekall event tr).2.countP (Event.covers a)
      = tr.countP (Event.covers a)) :
    vmi_current_thread_windows vmi2 rekall event tr
      = vmi_current_thread_windows vmi1 rekall event tr := by
  simp only [vmi_current_thread_windows, ← hag.1] at hc ⊢
  by_cases hm : vmi1.page_mode event.vcpu_id = page_mode_t.VMI_PM_IA32E
  · simp only [hm, ne_eq, not_true_eq_false, if_false] at hc ⊢
    by_cases hx : sub64 a (add64 (add64 event.x86_regs.gs_base rekall.kpcr_prcb)
        rekall.kprcb_currentthread) < 8
    · exfalso
      revert hc
      split <;> simp only [covers_read_snoc, covers_mode_snoc, hx, if_true] <;> omega
    · rw [read_agree hag hx]
  · simp only [hm, ne_eq, not_false_eq_true, if_true]

/-- The composite resolution only extends the log. -/
theorem process_count {vmi : vmi_instance_t} {rekall : windows_rekall_t}
    (fuel : Nat) (event : vmi_event_t) (a : Nat) (tr : List Event) (r : Nat)
    (tr' : List Event)
    (h : vmi_current_process_windows fuel vmi rekall event tr = some (r, tr')) :
    tr.countP (Event.covers a) ≤ tr'.countP (Event.covers a) := by
  have ht := thread_count vmi rekall event a tr
  simp only [vmi_current_process_windows] at h
  repeat' split at h
  all_goals first
    | (simp only [Option.some.injEq, Prod.mk.injEq] at h
       obtain ⟨_, rfl⟩ := h
       simp only [covers_read_snoc]
       omega)
    | (have hrec := find_eprocess_count _ _ a _ _ _ h
       try simp only [covers_read_snoc] at hrec
       omega)

/-- On two guests that agree except at `a`, a composite resolution that does not read `a`
gives the same result and log on both. -/
theorem process_agree {vmi1 vmi2 : vmi_instance_t} {rekall : windows_rekall_t}
    {a : Nat} (hag : agree_off_byte vmi1 vmi2 a) (fuel : Nat) (event : vmi_event_t)
    (tr : List Event) (r : Nat) (tr' : List Event)
    (h : vmi_current_process_windows fuel vmi1 rekall event tr = some (r, tr'))
    (hc : tr'.countP (Event.covers a) = tr.countP (Event.covers a)) :
    vmi_current_process_windows fuel vmi2 rekall event tr = some (r, tr') := by
  have hmono := process_count fuel event a tr r tr' h
  have ht := thread_count vmi1 rekall event a tr
  simp only [vmi_current_process_windows] at h ⊢
  by_cases hk : sub64 a
      (add64 (vmi_current_thread_windows vmi1 rekall event tr).1 rekall.kthread_process) < 8
  all_goals repeat' split at h
  all_goals first
    | (simp only [Option.some.injEq, Prod.mk.injEq] at h
       obtain ⟨rfl, rfl⟩ := h
       simp only [covers_read_snoc, hk, if_true, if_false] at hc
       first
         | (exfalso; omega)
         | (have hth := thread_agree hag rekall event tr (by omega)
            simp only [hth, read_agree hag, ne_eq, not_false_eq_true, *, if_true,
              if_false]))
    | (have hrec := find_eprocess_count _ _ a _ _ _ h
       try simp only [covers_read_snoc, hk, if_true, if_false] at hrec
       first
         | (exfalso; omega)
         | (have hth := thread_agree hag rekall event tr (by omega)
            simp only [hth, read_agree hag, ne_eq, not_false_eq_true, *, if_true,
              if_false]
            refine find_eprocess_agree hag _ _ _ _ _ h ?_
            try simp only [covers_read_snoc, hk, if_true, if_false]
            omega))

/-- Counterexample to C16 as stated: the guests `overlap_guest 0x30430` and
`overlap_guest 0x30431` differ only in the low 3 bits of the VAD-root field of the current
process, at `0x30448`; both decode the root `0x30430`, but the start field of that node is
the same cell, so the node starts at `0x30430000` in one and at `0x30431000` in the other,
and both operations return different results. -/
theorem vad_root_low_bits_change_result :
    agree_off_byte (overlap_guest 0x30430) (overlap_guest 0x30431) 0x30448 ∧
      (overlap_guest 0x30430).mem 0x30448 = some 0x30430 ∧
      (overlap_guest 0x30431).mem 0x30448 = some 0x30431 ∧
      0x30430 / 8 = 0x30431 / 8 ∧
      mask_fast_ref 0x30430 = mask_fast_ref 0x30431 ∧
      (vmi_current_process_windows 3 (overlap_guest 0x30430) demo_rekall demo_event []).map
        Prod.fst = some 0x30000 ∧
      (vmi_current_process_windows 3 (overlap_guest 0x30431) demo_rekall demo_event []).map
        Prod.fst = some 0x30000 ∧
      add64 0x30000 demo_rekall.eprocess_vadroot = 0x30448 ∧
      (vmi_current_find_segment_windows 3 true (overlap_guest 0x30430) demo_rekall demo_event
        0x30430800 []).map Prod.fst = some { base_va := 0x30430000, size := 0x10000 } ∧
      (vmi_current_find_segment_windows 3 true (overlap_guest 0x30431) demo_rekall demo_event
        0x30430800 []).map Prod.fst = some mem_seg_zero ∧
      (vmi_current_vad_list_windows 3 true (overlap_guest 0x30430) demo_rekall demo_event
        0x30430800 []).map Prod.fst = some [{ base_va := 0x30430000, size := 0x10000 }] ∧
      (vmi_current_vad_list_windows 3 true (overlap_guest 0x30431) demo_rekall demo_event
        0x30430800 []).map Prod.fst = some [{ base_va := 0x30431000, size := 0xf000 }] := by
  refine ⟨⟨rfl, rfl, ?_⟩, by decide, by decide, by decide, by decide, by decide, by decide,
    by decide, by decide, by decide, by decide, by decide⟩
  intro va hva
  have hne : va ≠ 0x30448 := by
    intro e
    rw [e] at hva
    exact hva (sub64_self_lt _)
  simp [overlap_guest, hne]

/-- C16 (amended): both operations use as root the value `v` read from the VAD-root field
of the process with its low 3 bits cleared, `8 * (v / 8)`.  For two guests whose memories
differ only in the low 3 bits of that field (the values read there have the same quotient
by `8`, the paging mode and the pointer read at `PsInitialSystemProcess` are the same, and
every pointer read whose 8 bytes do not cover the field's first byte gives the same), a run of
`vmi_current_find_segment_windows` (of `vmi_current_vad_list_windows`) on the first guest
that returns and whose only pointer read covering the field's first byte is the read of
the field gives the same result with the same log on the second guest. -/
theorem vad_root_low_bits_ignored (fuel : Nat) (vmi1 vmi2 : vmi_instance_t)
    (rekall : windows_rekall_t) (event : vmi_event_t) (addr : Nat) (tr : List Event)
    (process v1 v2 : Nat)
    (hag : agree_off_byte vmi1 vmi2 (add64 process rekall.eprocess_vadroot))
    (hproc : (vmi_current_process_windows fuel vmi1 rekall event tr).map Prod.fst
      = some process) (hp : process ≠ 0)
    (hv1 : vmi_read_addr_va vmi1 (add64 process rekall.eprocess_vadroot) = some v1)
    (hv2 : vmi_read_addr_va vmi2 (add64 process rekall.eprocess_vadroot) = some v2)
    (hlow : v1 / 8 = v2 / 8) :
    (∃ tr1,
      vmi_current_find_segment_windows fuel true vmi1 rekall event addr tr
        = vmi_current_find_segment_windows_loop vmi1 rekall addr fuel (v1 / 8 * 8) tr1 ∧
      vmi_current_vad_list_windows fuel true vmi1 rekall event addr tr
        = traverse vmi1 rekall fuel [] (v1 / 8 * 8) tr1) ∧
    (log_covers (vmi_current_find_segment_windows fuel true vmi1 rekall event addr tr)
          (add64 process rekall.eprocess_vadroot)
        = tr.countP (Event.covers (add64 process rekall.eprocess_vadroot)) + 1 →
      vmi_current_find_segment_windows fuel true vmi2 rekall event addr tr
        = vmi_current_find_segment_windows fuel true vmi1 rekall event addr tr) ∧
    (log_covers (vmi_current_vad_list_windows fuel true vmi1 rekall event addr tr)
          (add64 process rekall.eprocess_vadroot)
        = tr.countP (Event.covers (add64 process rekall.eprocess_vadroot)) + 1 →
      vmi_current_vad_list_windows fuel true vmi2 rekall event addr tr
        = vmi_current_vad_list_windows fuel true vmi1 rekall event addr tr) := by
  have hm1 : mask_fast_ref v1 = v1 / 8 * 8 := mask_fast_ref_eq (read_addr_va_lt hv1)
  have hm2 : mask_fast_ref v2 = v1 / 8 * 8 := by
    rw [mask_fast_ref_eq (read_addr_va_lt hv2), hlow]
  cases hpr : vmi_current_process_windows fuel vmi1 rekall event tr with
  | none => simp [hpr] at hproc
  | some res =>
    obtain ⟨process', trp⟩ := res
    simp only [hpr, Option.map_some', Option.some.injEq] at hproc
    subst hproc
    have hpmono := process_count fuel event (add64 process' rekall.eprocess_vadroot) tr
      process' trp hpr
    have hrunf : vmi_current_find_segment_windows fuel true vmi1 rekall event addr tr
        = vmi_current_find_segment_windows_loop vmi1 rekall addr fuel (v1 / 8 * 8)
            (trp ++ [Event.read_addr_va (add64 process' rekall.eprocess_vadroot)]) := by
      simp [vmi_current_find_segment_windows, hpr, hp, hv1, hm1]
    have hrunl : vmi_current_vad_list_windows fuel true vmi1 rekall event addr tr
        = traverse vmi1 rekall fuel [] (v1 / 8 * 8)
            (trp ++ [Event.read_addr_va (add64 process' rekall.eprocess_vadroot)]) := by
      simp [vmi_current_vad_list_windows, hpr, hp, hv1, hm1]
    refine ⟨⟨_, hrunf, hrunl⟩, ?_, ?_⟩
    · intro hcount
      rw [hrunf] at hcount ⊢
      cases hloop : vmi_current_find_segment_windows_loop vmi1 rekall addr fuel
          (v1 / 8 * 8)
          (trp ++ [Event.read_addr_va (add64 process' rekall.eprocess_vadroot)]) with
      | none =>
        rw [hloop] at hcount
        simp [log_covers] at hcount
      | some res =>
        obtain ⟨seg, tr1⟩ := res
        rw [hloop] at hcount
        simp only [log_covers] at hcount
        have hlmono := find_segment_loop_count addr
          (add64 process' rekall.eprocess_vadroot) _ _ _ _ _ hloop
        simp only [covers_read_snoc, sub64_self_lt, if_true] at hlmono
        have hproc2 := process_agree hag fuel event tr process' trp hpr (by omega)
        have hloop2 := find_segment_loop_agree hag addr _ _ _ _ _ hloop (by
          simp only [covers_read_snoc, sub64_self_lt, if_true]
          omega)
        simp [vmi_current_find_segment_windows, hproc2, hp, hv2, hm2, hloop2]
    · intro hcount
      rw [hrunl] at hcount ⊢
      cases hloop : traverse vmi1 rekall fuel [] (v1 / 8 * 8)
          (trp ++ [Event.read_addr_va (add64 process' rekall.eprocess_vadroot)]) with
      | none =>
        rw [hloop] at hcount
        simp [log_covers] at hcount
      | some res =>
        obtain ⟨out, tr1⟩ := res
        rw [hloop] at hcount
        simp only [log_covers] at hcount
        have hlmono := traverse_count (add64 process' rekall.eprocess_vadroot) _ _ _ _ _ _
          hloop
        simp only [covers_read_snoc, sub64_self_lt, if_true] at hlmono
        have hproc2 := process_agree hag fuel event tr process' trp hpr (by omega)
        have hloop2 := traverse_agree hag _ _ _ _ _ _ hloop (by
          simp only [covers_read_snoc, sub64_self_lt, if_true]
          omega)
        simp [vmi_current_vad_list_windows, hproc2, hp, hv2, hm2, hloop2]

/-- Witness for C16 (amended): `demo_guest`, whose root field holds `0x40003`, and the
guest with the same tree whose root field holds `0x40005`; both runs on `demo_guest` make
one read covering the byte at `0x30448`, the read of the field. -/
theorem vad_root_low_bits_ignored_witness :
    agree_off_byte demo_guest (guest_of_tree 0x40005 demo_tree) 0x30448 ∧
      0x40003 / 8 = 0x40005 / 8 ∧
      log_covers (vmi_current_find_segment_windows 3 true demo_guest demo_rekall demo_event
        0x35000 []) 0x30448 = 1 ∧
      log_covers (vmi_current_vad_list_windows 3 true demo_guest demo_rekall demo_event
        0x35000 []) 0x30448 = 1 ∧
      vmi_current_find_segment_windows 3 true (guest_of_tree 0x40005 demo_tree) demo_rekall
          demo_event 0x35000 []
        = vmi_current_find_segment_windows 3 true demo_guest demo_rekall demo_event 0x35000
          [] ∧
      vmi_current_vad_list_windows 3 true (guest_of_tree 0x40005 demo_tree) demo_rekall
          demo_event 0x35000 []
        = vmi_current_vad_list_windows 3 true demo_guest demo_rekall demo_event 0x35000 [] :=
  have hag : agree_off_byte demo_guest (guest_of_tree 0x40005 demo_tree) 0x30448 := by
    refine ⟨rfl, rfl, ?_⟩
    intro va hva
    have hb : (va == 0x30448) = false := by
      have hne : va ≠ 0x30448 := by
        intro e
        rw [e] at hva
        exact hva (sub64_self_lt _)
      simpa using hne
    simp [demo_guest, guest_of_tree, guest_of_cells, current_process_cells, List.lookup, hb]
  have h := vad_root_low_bits_ignored 3 demo_guest (guest_of_tree 0x40005 demo_tree)
    demo_rekall demo_event 0x35000 [] 0x30000 0x40003 0x40005 hag (by decide) (by decide)
    (by decide) (by decide) (by decide)
  ⟨hag, by decide, by decide, by decide, h.2.1 (by decide), h.2.2 (by decide)⟩

end VmiUnpack
